import Mathlib

/-!
# Verification of the plugin review engine

Shallow embedding of the review orchestration engine of the repository
(`index.js` / `prompts.js`): the content normalizer, the file prioritizer,
the token-budget file-selection planner, the submission format validator,
the result combiner, and the orchestrator's comment/ticket state machine.

JavaScript strings are modelled at the Unicode scalar level (`List Char`);
`Math.ceil` arithmetic over integer-valued floats is modelled over `ℚ`
(exact for the magnitudes involved); host builtins (`JSON.parse`,
the completion service, the ticket API) are oracle parameters.
-/

namespace PluginReviewer

/-! ## JavaScript string primitives -/

/-- The JavaScript `\s` / `trim` whitespace class (WhiteSpace ∪ LineTerminator). -/
def isJsWs (c : Char) : Bool :=
  c = ' ' ∨ c = '\t' ∨ c = '\n' ∨ c = '\u000b' ∨ c = '\u000c' ∨ c = '\r' ∨
  c = '\u00a0' ∨ c = '\u1680' ∨ ('\u2000' ≤ c ∧ c ≤ '\u200a') ∨
  c = '\u2028' ∨ c = '\u2029' ∨ c = '\u202f' ∨ c = '\u205f' ∨
  c = '\u3000' ∨ c = '\ufeff'

/-- `String.prototype.trimEnd` on scalar lists. -/
def trimEndL (l : List Char) : List Char :=
  (l.reverse.dropWhile isJsWs).reverse

/-- `String.prototype.trim` on scalar lists. -/
def trimL (l : List Char) : List Char :=
  trimEndL (l.dropWhile isJsWs)

/-- `String.prototype.trim`. -/
def jsTrim (s : String) : String :=
  (trimL s.toList).asString

theorem trimEndL_isPrefix_self (l : List Char) : trimEndL l <+: l := by
  obtain ⟨t, ht⟩ : l.reverse.dropWhile isJsWs <:+ l.reverse :=
    ⟨l.reverse.takeWhile isJsWs, List.takeWhile_append_dropWhile isJsWs l.reverse⟩
  exact ⟨t.reverse, by
    rw [trimEndL, ← List.reverse_append, ht, List.reverse_reverse]⟩

theorem trimEndL_eq_take (l : List Char) :
    trimEndL l = l.take (trimEndL l).length :=
  List.prefix_iff_eq_take.mp (trimEndL_isPrefix_self l)

/-! ## Content normalizer (`removeCommentsFromLine`) -/

/-- One step of the quote-state automaton in `removeCommentsFromLine`:
`prev` is the previous character (`none` at index 0). A quote toggles its
own flag only when the other flag is unset and `prev` is not a backslash. -/
def stepQuotes (sq dq : Bool) (prev : Option Char) (c : Char) : Bool × Bool :=
  if c = '\'' ∧ dq = false then
    if prev = some '\\' then (sq, dq) else (!sq, dq)
  else if c = '"' ∧ sq = false then
    if prev = some '\\' then (sq, dq) else (sq, !dq)
  else (sq, dq)

/-- The scanning loop of `removeCommentsFromLine`: returns the index of the
first `#` encountered with both quote flags false, if any. -/
def findCut (sq dq : Bool) (prev : Option Char) : List Char → Option Nat
  | [] => none
  | c :: cs =>
    let s := stepQuotes sq dq prev c
    if c = '#' ∧ s.1 = false ∧ s.2 = false then some 0
    else (findCut s.1 s.2 (some c) cs).map (· + 1)

/-- `removeCommentsFromLine` on scalar lists: truncate at the first
unquoted `#` and strip trailing whitespace, else return the line whole. -/
def removeCommentsL (l : List Char) : List Char :=
  match findCut false false none l with
  | some i => trimEndL (l.take i)
  | none => l

/-- `removeCommentsFromLine` (source lines 354–381). -/
def removeCommentsFromLine (line : String) : String :=
  (removeCommentsL line.toList).asString

/-- Final quote-flag state after scanning a list of characters
(declarative restatement of the automaton used for the claims). -/
def quoteState (sq dq : Bool) (prev : Option Char) : List Char → Bool × Bool
  | [] => (sq, dq)
  | c :: cs =>
    let s := stepQuotes sq dq prev c
    quoteState s.1 s.2 (some c) cs

/-- Declarative cut position: the least index `i` with `l[i] = '#'` and
both quote flags false after scanning `l.take i`. `prev0` threads the
character preceding the scanned region. -/
def specCut (sq dq : Bool) (prev : Option Char) : List Char → Option Nat
  | [] => none
  | c :: cs =>
    if c = '#' ∧ sq = false ∧ dq = false then some 0
    else
      let s := stepQuotes sq dq prev c
      (specCut s.1 s.2 (some c) cs).map (· + 1)

theorem stepQuotes_hash (sq dq : Bool) (prev : Option Char) :
    stepQuotes sq dq prev '#' = (sq, dq) := by
  simp [stepQuotes]

theorem findCut_eq_specCut (l : List Char) :
    ∀ sq dq prev, findCut sq dq prev l = specCut sq dq prev l := by
  induction l with
  | nil => intro sq dq prev; rfl
  | cons c cs ih =>
    intro sq dq prev
    by_cases hc : c = '#'
    · subst hc
      simp only [findCut, specCut, stepQuotes_hash, ih]
    · simp only [findCut, specCut]
      rw [if_neg (by simp [hc]), if_neg (by simp [hc])]
      simp [ih]

theorem findCut_none_take :
    ∀ (l : List Char) (sq dq : Bool) (prev : Option Char) (k : Nat),
      findCut sq dq prev l = none → findCut sq dq prev (l.take k) = none := by
  intro l
  induction l with
  | nil => intro sq dq prev k h; rw [List.take_nil]; exact h
  | cons c cs ih =>
    intro sq dq prev k h
    match k with
    | 0 => rfl
    | k + 1 =>
      simp only [findCut, List.take_succ_cons] at h ⊢
      by_cases hc : c = '#' ∧ (stepQuotes sq dq prev c).1 = false ∧
          (stepQuotes sq dq prev c).2 = false
      · rw [if_pos hc] at h; exact absurd h (by simp)
      · rw [if_neg hc] at h ⊢
        rcases Option.map_eq_none'.mp h with h'
        rw [ih _ _ _ k h']
        rfl

theorem findCut_some_take :
    ∀ (l : List Char) (sq dq : Bool) (prev : Option Char) (i : Nat),
      findCut sq dq prev l = some i → findCut sq dq prev (l.take i) = none := by
  intro l
  induction l with
  | nil => intro sq dq prev i h; exact absurd h (by simp [findCut])
  | cons c cs ih =>
    intro sq dq prev i h
    simp only [findCut] at h
    by_cases hc : c = '#' ∧ (stepQuotes sq dq prev c).1 = false ∧
        (stepQuotes sq dq prev c).2 = false
    · rw [if_pos hc] at h
      obtain rfl : i = 0 := by simpa using h.symm
      rfl
    · rw [if_neg hc] at h
      obtain ⟨j, hj, rfl⟩ := Option.map_eq_some'.mp h
      simp only [List.take_succ_cons, findCut]
      rw [if_neg hc, ih _ _ _ j hj]
      rfl

theorem removeCommentsL_idem (l : List Char) :
    removeCommentsL (removeCommentsL l) = removeCommentsL l := by
  unfold removeCommentsL
  cases h : findCut false false none l with
  | none => rw [h]
  | some i =>
    have h1 : findCut false false none (l.take i) = none :=
      findCut_some_take l false false none i h
    have h2 : findCut false false none (trimEndL (l.take i)) = none := by
      rw [trimEndL_eq_take (l.take i)]
      exact findCut_none_take _ _ _ _ _ h1
    rw [h2]

theorem removeCommentsL_shape (l : List Char) :
    removeCommentsL l = l ∨
      ∃ i ≤ l.length, removeCommentsL l = trimEndL (l.take i) := by
  unfold removeCommentsL
  cases h : findCut false false none l with
  | none => left; rfl
  | some i =>
    right
    by_cases hi : i ≤ l.length
    · exact ⟨i, hi, rfl⟩
    · refine ⟨l.length, le_refl _, ?_⟩
      show trimEndL (l.take i) = trimEndL (l.take l.length)
      rw [List.take_length, List.take_of_length_le (by omega)]

/-- Claim C10: the content normalizer is idempotent, and its output is
always either the whole input line or a prefix of it with trailing
whitespace removed — it never adds or reorders characters. -/
theorem claim_C10 (line : String) :
    removeCommentsFromLine (removeCommentsFromLine line) = removeCommentsFromLine line ∧
    (removeCommentsFromLine line = line ∨
      ∃ i ≤ line.toList.length,
        removeCommentsFromLine line = (trimEndL (line.toList.take i)).asString) := by
  constructor
  · unfold removeCommentsFromLine
    rw [List.toList_asString, removeCommentsL_idem]
  · rcases removeCommentsL_shape line.toList with h | ⟨i, hi, h⟩
    · left
      unfold removeCommentsFromLine
      rw [h, String.asString_toList]
    · right
      exact ⟨i, hi, by unfold removeCommentsFromLine; rw [h]⟩

theorem specCut_some_spec :
    ∀ (l : List Char) (sq dq : Bool) (prev : Option Char) (i : Nat),
      specCut sq dq prev l = some i →
        l[i]? = some '#' ∧
        quoteState sq dq prev (l.take i) = (false, false) ∧
        ∀ j < i, ¬(l[j]? = some '#' ∧
          quoteState sq dq prev (l.take j) = (false, false)) := by
  intro l
  induction l with
  | nil => intro sq dq prev i h; exact absurd h (by simp [specCut])
  | cons c cs ih =>
    intro sq dq prev i h
    simp only [specCut] at h
    by_cases hc : c = '#' ∧ sq = false ∧ dq = false
    · rw [if_pos hc] at h
      obtain rfl : i = 0 := by simpa using h.symm
      refine ⟨by simp [hc.1], by simp [quoteState, hc.2.1, hc.2.2], ?_⟩
      intro j hj
      omega
    · rw [if_neg hc] at h
      obtain ⟨j, hj, rfl⟩ := Option.map_eq_some'.mp h
      obtain ⟨h1, h2, h3⟩ := ih _ _ _ j hj
      refine ⟨by simpa using h1, ?_, ?_⟩
      · simpa [List.take_succ_cons, quoteState] using h2
      · intro k hk
        match k with
        | 0 =>
          intro ⟨hk1, hk2⟩
          apply hc
          refine ⟨by simpa using hk1, ?_, ?_⟩
          · simpa [quoteState] using congrArg Prod.fst hk2
          · simpa [quoteState] using congrArg Prod.snd hk2
        | k + 1 =>
          intro ⟨hk1, hk2⟩
          apply h3 k (by omega)
          refine ⟨by simpa using hk1, ?_⟩
          simpa [List.take_succ_cons, quoteState] using hk2

theorem specCut_none_spec :
    ∀ (l : List Char) (sq dq : Bool) (prev : Option Char),
      specCut sq dq prev l = none →
        ∀ j, ¬(l[j]? = some '#' ∧
          quoteState sq dq prev (l.take j) = (false, false)) := by
  intro l
  induction l with
  | nil => intro sq dq prev _ j; simp
  | cons c cs ih =>
    intro sq dq prev h j
    simp only [specCut] at h
    by_cases hc : c = '#' ∧ sq = false ∧ dq = false
    · rw [if_pos hc] at h; exact absurd h (by simp)
    · rw [if_neg hc] at h
      have h' : specCut (stepQuotes sq dq prev c).1 (stepQuotes sq dq prev c).2
          (some c) cs = none := Option.map_eq_none'.mp h
      match j with
      | 0 =>
        intro ⟨hk1, hk2⟩
        apply hc
        refine ⟨by simpa using hk1, ?_, ?_⟩
        · simpa [quoteState] using congrArg Prod.fst hk2
        · simpa [quoteState] using congrArg Prod.snd hk2
      | j + 1 =>
        intro ⟨hk1, hk2⟩
        apply ih _ _ _ h' j
        refine ⟨by simpa using hk1, ?_⟩
        simpa [List.take_succ_cons, quoteState] using hk2

/-- Claim C7: the content normalizer scans left to right maintaining the
two quote flags (toggling per `stepQuotes`); the first `#` reached with
both flags false truncates the line there with trailing whitespace
trimmed, otherwise the full line is returned; and on
`x = "a#b"  # trailing` it yields `x = "a#b"`. -/
theorem claim_C7 :
    (∀ (line : String) (i : Nat),
      findCut false false none line.toList = some i →
        removeCommentsFromLine line = (trimEndL (line.toList.take i)).asString ∧
        line.toList[i]? = some '#' ∧
        quoteState false false none (line.toList.take i) = (false, false) ∧
        ∀ j < i, ¬(line.toList[j]? = some '#' ∧
          quoteState false false none (line.toList.take j) = (false, false))) ∧
    (∀ line : String,
      findCut false false none line.toList = none →
        removeCommentsFromLine line = line) ∧
    removeCommentsFromLine "x = \"a#b\"  # trailing" = "x = \"a#b\"" := by
  refine ⟨?_, ?_, ?_⟩
  · intro line i h
    have hs := h
    rw [findCut_eq_specCut] at hs
    obtain ⟨h1, h2, h3⟩ := specCut_some_spec _ _ _ _ _ hs
    refine ⟨?_, h1, h2, h3⟩
    unfold removeCommentsFromLine removeCommentsL
    rw [h]
  · intro line h
    unfold removeCommentsFromLine removeCommentsL
    rw [h, String.asString_toList]
  · rfl

/-- Witness for C7: the concrete example, with the cut at index 11. -/
theorem claim_C7_witness :
    (findCut false false none ("x = \"a#b\"  # trailing").toList = some 11) ∧
    removeCommentsFromLine "x = \"a#b\"  # trailing" =
      (trimEndL (("x = \"a#b\"  # trailing").toList.take 11)).asString :=
  ⟨by decide, (claim_C7.1 "x = \"a#b\"  # trailing" 11 (by decide)).1⟩

/-! ## Substring search (`String.prototype.includes`) -/

/-- `pat` occurs as a contiguous substring of `s`. -/
def hasInfix (pat : List Char) : List Char → Bool
  | [] => pat.isPrefixOf []
  | c :: cs => pat.isPrefixOf (c :: cs) || hasInfix pat cs

theorem hasInfix_iff (pat : List Char) :
    ∀ s : List Char, hasInfix pat s = true ↔ pat <:+: s := by
  intro s
  induction s with
  | nil =>
    simp only [hasInfix, List.isPrefixOf_iff_prefix, List.prefix_nil, List.infix_nil]
  | cons c cs ih =>
    simp only [hasInfix, Bool.or_eq_true, List.isPrefixOf_iff_prefix, ih]
    exact List.infix_cons_iff.symm

/-- `String.prototype.includes` on strings. -/
def containsStr (s pat : String) : Bool := hasInfix pat.toList s.toList

/-! ## File prioritizer and planner data -/

/-- A file-tree entry relevant to the planner (`{path, sha}`). -/
structure FileMeta where
  path : String
  sha : Nat
deriving DecidableEq, Repr

/-- A selected file with fetched, normalized content (`{path, content}`). -/
structure FetchedFile where
  path : String
  content : String
deriving DecidableEq, Repr

/-- `path.toLowerCase().includes("main.py")` — the entry-point test used
throughout the source. -/
def isMainPath (p : String) : Bool :=
  hasInfix "main.py".toList (p.toList.map Char.toLower)

/-- `MAX_FILES_TO_REVIEW` (source line 5). -/
def MAX_FILES_TO_REVIEW : Nat := 15

/-- `Math.ceil(len * 0.25)`: estimated token cost of a template string
(`TOKEN_ESTIMATION_RATIO = 0.25`, source line 6). -/
def promptTokensOf (tpl : String) : Nat :=
  (⌈(tpl.length : ℚ) * (1/4)⌉).toNat

/-- `Math.ceil((content.length + path.length) * 0.25 + promptTokens)`
(source lines 332–334). -/
def estimatedTokens (content path : String) (promptTokens : Nat) : Nat :=
  (⌈((content.length + path.length : Nat) : ℚ) * (1/4) + (promptTokens : ℚ)⌉).toNat

/-- `maxInputTokens * 0.7` (source line 304). -/
def tokenLimit (maxInputTokens : Nat) : ℚ :=
  (maxInputTokens : ℚ) * (7/10)

/-- Decode-and-normalize step applied to a fetched blob (source lines
321–326): split into lines, strip comments, drop blank lines, re-join. -/
def normalizeContent (raw : String) : String :=
  String.intercalate "\n"
    (((raw.splitOn "\n").map removeCommentsFromLine).filter (fun l => jsTrim l != ""))

/-- The planner loop of `selectAndFetchFilesForReview` (source lines
311–345): `selCount` is `selected.length`, `tot` is
`totalEstimatedTokens`; `fetch` models the fallible blob fetch. -/
def selectGo (fetch : FileMeta → Option String) (mainPT regPT : Nat) (limit : ℚ) :
    List FileMeta → Nat → Nat → List FetchedFile
  | [], _, _ => []
  | f :: rest, selCount, tot =>
    if MAX_FILES_TO_REVIEW ≤ selCount then []
    else
      match fetch f with
      | none => selectGo fetch mainPT regPT limit rest selCount tot
      | some raw =>
        let content := normalizeContent raw
        let pt := if isMainPath f.path then mainPT else regPT
        let est := estimatedTokens content f.path pt
        if limit < ((tot + est : Nat) : ℚ) then []
        else ⟨f.path, content⟩ :: selectGo fetch mainPT regPT limit rest (selCount + 1) (tot + est)

/-- `selectAndFetchFilesForReview` (source lines 295–347), parameterized by
the two instructional template strings (opaque prompt data). -/
def selectAndFetchFilesForReview (fetch : FileMeta → Option String)
    (mainPrompt regularPrompt : String) (files : List FileMeta)
    (maxInputTokens : Nat) : List FetchedFile :=
  selectGo fetch (promptTokensOf mainPrompt) (promptTokensOf regularPrompt)
    (tokenLimit maxInputTokens) files 0 0

/-- The successive values of `totalEstimatedTokens` after each accepted
file, mirroring `selectGo`. -/
def selectTrace (fetch : FileMeta → Option String) (mainPT regPT : Nat) (limit : ℚ) :
    List FileMeta → Nat → Nat → List Nat
  | [], _, _ => []
  | f :: rest, selCount, tot =>
    if MAX_FILES_TO_REVIEW ≤ selCount then []
    else
      match fetch f with
      | none => selectTrace fetch mainPT regPT limit rest selCount tot
      | some raw =>
        let content := normalizeContent raw
        let pt := if isMainPath f.path then mainPT else regPT
        let est := estimatedTokens content f.path pt
        if limit < ((tot + est : Nat) : ℚ) then []
        else (tot + est) :: selectTrace fetch mainPT regPT limit rest (selCount + 1) (tot + est)

/-- Cost charged for an accepted file, recomputed from its record. -/
def costOf (mainPT regPT : Nat) (ff : FetchedFile) : Nat :=
  estimatedTokens ff.content ff.path (if isMainPath ff.path then mainPT else regPT)

theorem selectGo_isPrefixSelection (fetch : FileMeta → Option String)
    (mainPT regPT : Nat) (limit : ℚ) :
    ∀ (files : List FileMeta) (selCount tot : Nat),
      ∃ k ≤ files.length,
        selectGo fetch mainPT regPT limit files selCount tot =
          (files.take k).filterMap
            (fun f => (fetch f).map (fun raw => ⟨f.path, normalizeContent raw⟩)) := by
  intro files
  induction files with
  | nil => intro selCount tot; exact ⟨0, le_refl _, rfl⟩
  | cons f rest ih =>
    intro selCount tot
    by_cases hcap : MAX_FILES_TO_REVIEW ≤ selCount
    · refine ⟨0, Nat.zero_le _, ?_⟩
      simp [selectGo, hcap]
    · cases hf : fetch f with
      | none =>
        obtain ⟨k, hk, hrec⟩ := ih selCount tot
        refine ⟨k + 1, by simpa using Nat.succ_le_succ hk, ?_⟩
        simp only [selectGo, if_neg hcap, hf, List.take_succ_cons, List.filterMap_cons]
        simpa [hf] using hrec
      | some raw =>
        by_cases hb : limit < ((tot + estimatedTokens (normalizeContent raw) f.path
            (if isMainPath f.path then mainPT else regPT) : Nat) : ℚ)
        · refine ⟨0, Nat.zero_le _, ?_⟩
          simp only [selectGo, if_neg hcap, hf]
          rw [if_pos hb]
          rfl
        · obtain ⟨k, hk, hrec⟩ := ih (selCount + 1)
            (tot + estimatedTokens (normalizeContent raw) f.path
              (if isMainPath f.path then mainPT else regPT))
          refine ⟨k + 1, by simpa using Nat.succ_le_succ hk, ?_⟩
          simp only [selectGo, if_neg hcap, hf]
          rw [if_neg hb]
          simp only [List.take_succ_cons, List.filterMap_cons, hf, Option.map_some']
          rw [hrec]

/-- Claim C1: the planner's selection is a priority-ordered contiguous
prefix of the input after removing files whose fetch failed; a fetch
failure only skips that file and scanning continues, while the first file
whose estimated cost would push the consumed total over the budget stops
the scan entirely. -/
theorem claim_C1 (fetch : FileMeta → Option String) (mainPrompt regularPrompt : String)
    (files : List FileMeta) (maxInputTokens : Nat) :
    (∃ k ≤ files.length,
      selectAndFetchFilesForReview fetch mainPrompt regularPrompt files maxInputTokens =
        (files.take k).filterMap
          (fun f => (fetch f).map (fun raw => ⟨f.path, normalizeContent raw⟩))) ∧
    (∀ (mainPT regPT : Nat) (limit : ℚ) (f : FileMeta) (rest : List FileMeta)
        (selCount tot : Nat), fetch f = none → selCount < MAX_FILES_TO_REVIEW →
      selectGo fetch mainPT regPT limit (f :: rest) selCount tot =
        selectGo fetch mainPT regPT limit rest selCount tot) ∧
    (∀ (mainPT regPT : Nat) (limit : ℚ) (f : FileMeta) (rest : List FileMeta)
        (selCount tot : Nat) (raw : String), fetch f = some raw →
        selCount < MAX_FILES_TO_REVIEW →
      limit < ((tot + estimatedTokens (normalizeContent raw) f.path
        (if isMainPath f.path then mainPT else regPT) : Nat) : ℚ) →
      selectGo fetch mainPT regPT limit (f :: rest) selCount tot = []) := by
  refine ⟨selectGo_isPrefixSelection fetch _ _ _ files 0 0, ?_, ?_⟩
  · intro mainPT regPT limit f rest selCount tot hf hcap
    simp [selectGo, Nat.not_le.mpr hcap, hf]
  · intro mainPT regPT limit f rest selCount tot raw hf hcap hb
    simp only [selectGo, if_neg (Nat.not_le.mpr hcap), hf]
    rw [if_pos hb]

/-- Witness for C1: a concrete run in which the first file's fetch fails
(selection continues) and a later file fails the budget check (selection
stops). -/
theorem claim_C1_witness :
    ((fun f : FileMeta => if f.sha = 0 then none else some "x=1") ⟨"a.py", 0⟩ = none) ∧
    (0 : Nat) < MAX_FILES_TO_REVIEW ∧
    selectGo (fun f : FileMeta => if f.sha = 0 then none else some "x=1") 2 2 (3 : ℚ)
        (⟨"a.py", 0⟩ :: [⟨"b.py", 1⟩]) 0 0 =
      selectGo (fun f : FileMeta => if f.sha = 0 then none else some "x=1") 2 2 (3 : ℚ)
        [⟨"b.py", 1⟩] 0 0 :=
  ⟨by decide, by decide,
    (claim_C1 (fun f : FileMeta => if f.sha = 0 then none else some "x=1")
      "" "" [] 0).2.1 2 2 3 ⟨"a.py", 0⟩ [⟨"b.py", 1⟩] 0 0 (by decide) (by decide)⟩

theorem ceil_div_four (m : Nat) : ⌈(m : ℚ) / 4⌉ = (((m + 3) / 4 : Nat) : ℤ) := by
  have hd : 4 * ((m + 3) / 4) < m + 4 ∧ m ≤ 4 * ((m + 3) / 4) := by
    have h1 := Nat.div_add_mod (m + 3) 4
    have h2 := Nat.mod_lt (m + 3) (show 0 < 4 by norm_num)
    omega
  have hcast : ((((m + 3) / 4 : Nat) : ℤ) : ℚ) = (((m + 3) / 4 : Nat) : ℚ) :=
    Int.cast_natCast _
  rw [Int.ceil_eq_iff, hcast]
  constructor
  · have h1 : (4 * ((m + 3) / 4 : Nat) : ℚ) < ((m : ℚ) + 4) := by
      exact_mod_cast Nat.cast_lt.mpr hd.1
    linarith
  · have h2 : ((m : ℚ)) ≤ 4 * ((m + 3) / 4 : Nat) := by
      exact_mod_cast Nat.cast_le.mpr hd.2
    linarith

theorem estimatedTokens_closed (content path : String) (pt : Nat) :
    estimatedTokens content path pt = (content.length + path.length + 3) / 4 + pt := by
  unfold estimatedTokens
  have h1 : ((content.length + path.length : Nat) : ℚ) * (1/4) + (pt : ℚ)
      = ((content.length + path.length : Nat) : ℚ) / 4 + ((pt : ℤ) : ℚ) := by
    push_cast
    ring
  rw [h1, Int.ceil_add_int, ceil_div_four]
  rw [show ((((content.length + path.length + 3) / 4 : Nat) : ℤ) + ((pt : ℤ)))
      = (((content.length + path.length + 3) / 4 + pt : Nat) : ℤ) by push_cast; ring]
  exact Int.toNat_natCast _

theorem selectGo_budget (fetch : FileMeta → Option String)
    (mainPT regPT : Nat) (limit : ℚ) :
    ∀ (files : List FileMeta) (selCount tot : Nat),
      (tot : ℚ) ≤ limit →
      ((tot + ((selectGo fetch mainPT regPT limit files selCount tot).map
        (costOf mainPT regPT)).sum : Nat) : ℚ) ≤ limit := by
  intro files
  induction files with
  | nil => intro selCount tot h; simpa [selectGo] using h
  | cons f rest ih =>
    intro selCount tot h
    by_cases hcap : MAX_FILES_TO_REVIEW ≤ selCount
    · simpa [selectGo, hcap] using h
    · cases hf : fetch f with
      | none =>
        simp only [selectGo, if_neg hcap, hf]
        exact ih selCount tot h
      | some raw =>
        by_cases hb : limit < ((tot + estimatedTokens (normalizeContent raw) f.path
            (if isMainPath f.path then mainPT else regPT) : Nat) : ℚ)
        · simp only [selectGo, if_neg hcap, hf]
          rw [if_pos hb]
          simpa using h
        · simp only [selectGo, if_neg hcap, hf]
          rw [if_neg hb]
          push_neg at hb
          have := ih (selCount + 1)
            (tot + estimatedTokens (normalizeContent raw) f.path
              (if isMainPath f.path then mainPT else regPT)) hb
          simp only [List.map_cons, List.sum_cons, costOf] at this ⊢
          convert this using 2
          ring

theorem selectGo_length (fetch : FileMeta → Option String)
    (mainPT regPT : Nat) (limit : ℚ) :
    ∀ (files : List FileMeta) (selCount tot : Nat),
      (selectGo fetch mainPT regPT limit files selCount tot).length
        ≤ MAX_FILES_TO_REVIEW - selCount := by
  intro files
  induction files with
  | nil => intro selCount tot; simp [selectGo]
  | cons f rest ih =>
    intro selCount tot
    by_cases hcap : MAX_FILES_TO_REVIEW ≤ selCount
    · simp [selectGo, hcap]
    · cases hf : fetch f with
      | none =>
        simp only [selectGo, if_neg hcap, hf]
        exact ih selCount tot
      | some raw =>
        by_cases hb : limit < ((tot + estimatedTokens (normalizeContent raw) f.path
            (if isMainPath f.path then mainPT else regPT) : Nat) : ℚ)
        · simp only [selectGo, if_neg hcap, hf]
          rw [if_pos hb]
          simp
        · simp only [selectGo, if_neg hcap, hf]
          rw [if_neg hb]
          have := ih (selCount + 1)
            (tot + estimatedTokens (normalizeContent raw) f.path
              (if isMainPath f.path then mainPT else regPT))
          simp only [List.length_cons]
          omega

theorem selectTrace_chain (fetch : FileMeta → Option String)
    (mainPT regPT : Nat) (limit : ℚ) :
    ∀ (files : List FileMeta) (selCount tot : Nat),
      List.Chain (· ≤ ·) tot
        (selectTrace fetch mainPT regPT limit files selCount tot) := by
  intro files
  induction files with
  | nil => intro selCount tot; exact List.Chain.nil
  | cons f rest ih =>
    intro selCount tot
    by_cases hcap : MAX_FILES_TO_REVIEW ≤ selCount
    · simp only [selectTrace, if_pos hcap]
      exact List.Chain.nil
    · cases hf : fetch f with
      | none =>
        simp only [selectTrace, if_neg hcap, hf]
        exact ih selCount tot
      | some raw =>
        by_cases hb : limit < ((tot + estimatedTokens (normalizeContent raw) f.path
            (if isMainPath f.path then mainPT else regPT) : Nat) : ℚ)
        · simp only [selectTrace, if_neg hcap, hf]
          rw [if_pos hb]
          exact List.Chain.nil
        · simp only [selectTrace, if_neg hcap, hf]
          rw [if_neg hb]
          exact List.Chain.cons (Nat.le_add_right _ _) (ih _ _)

/-- Claim C2: the planner never exceeds the 70% token budget, never
selects more than `MAX_FILES_TO_REVIEW` files, the consumed-token counter
only increases during the pass, and each file's cost is
`ceil((len(content)+len(path)) * 0.25 + templateTokens)` (whose closed
form is given). -/
theorem claim_C2 (fetch : FileMeta → Option String) (mainPrompt regularPrompt : String)
    (files : List FileMeta) (maxInputTokens : Nat) :
    ((((selectAndFetchFilesForReview fetch mainPrompt regularPrompt files
        maxInputTokens).map
      (costOf (promptTokensOf mainPrompt) (promptTokensOf regularPrompt))).sum : Nat) : ℚ)
        ≤ tokenLimit maxInputTokens ∧
    (selectAndFetchFilesForReview fetch mainPrompt regularPrompt files
        maxInputTokens).length ≤ MAX_FILES_TO_REVIEW ∧
    List.Chain (· ≤ ·) 0
      (selectTrace fetch (promptTokensOf mainPrompt) (promptTokensOf regularPrompt)
        (tokenLimit maxInputTokens) files 0 0) ∧
    (∀ (content path : String) (pt : Nat),
      estimatedTokens content path pt = (content.length + path.length + 3) / 4 + pt) := by
  refine ⟨?_, ?_, selectTrace_chain _ _ _ _ files 0 0, estimatedTokens_closed⟩
  · have h0 : ((0 : Nat) : ℚ) ≤ tokenLimit maxInputTokens := by
      unfold tokenLimit
      positivity
    have := selectGo_budget fetch (promptTokensOf mainPrompt)
      (promptTokensOf regularPrompt) (tokenLimit maxInputTokens) files 0 0 h0
    simpa [selectAndFetchFilesForReview] using this
  · have := selectGo_length fetch (promptTokensOf mainPrompt)
      (promptTokensOf regularPrompt) (tokenLimit maxInputTokens) files 0 0
    simpa [selectAndFetchFilesForReview] using this

/-! ## File prioritizer (`sortFilesByPriority`) -/

/-- `String.prototype.split` with a one-character separator, on scalar
lists (`"".split(sep)` is `[""]`). -/
def splitChar (sep : Char) : List Char → List (List Char)
  | [] => [[]]
  | c :: cs =>
    match splitChar sep cs with
    | [] => [[c]]
    | g :: gs => if c = sep then [] :: g :: gs else (c :: g) :: gs

/-- `path.split("/").length` — directory depth measure used by the sort. -/
def pathDepth (p : String) : Nat := (splitChar '/' p.toList).length

/-- Model of `String.prototype.localeCompare` as codepoint-lexicographic
comparison (host collation approximated by the scalar order). -/
def lexCompare (a b : String) : Int :=
  if a < b then -1 else if b < a then 1 else 0

/-- The comparator of `sortFilesByPriority` (source lines 271–284). -/
def cmpFiles (a b : FileMeta) : Int :=
  if isMainPath a.path ≠ isMainPath b.path then
    (if isMainPath a.path then -1 else 1)
  else if pathDepth a.path ≠ pathDepth b.path then
    (pathDepth a.path : Int) - (pathDepth b.path : Int)
  else lexCompare a.path b.path

/-- Non-positive comparator result, the order used by the (stable) sort. -/
def fileLE (a b : FileMeta) : Bool := decide (cmpFiles a b ≤ 0)

/-- `sortFilesByPriority` (source lines 270–285): JavaScript's stable
`Array.prototype.sort` on a copy, modelled by `mergeSort`. -/
def sortFilesByPriority (files : List FileMeta) : List FileMeta :=
  files.mergeSort fileLE

/-- Rank of the entry-point flag: entry-point files sort first. -/
def mainRank (a : FileMeta) : Nat := if isMainPath a.path then 0 else 1

theorem mainRank_eq_iff (a b : FileMeta) :
    mainRank a = mainRank b ↔ isMainPath a.path = isMainPath b.path := by
  unfold mainRank
  cases ha : isMainPath a.path <;> cases hb : isMainPath b.path <;> simp

theorem mainRank_lt_iff (a b : FileMeta) :
    mainRank a < mainRank b ↔
      (isMainPath a.path = true ∧ isMainPath b.path = false) := by
  unfold mainRank
  cases ha : isMainPath a.path <;> cases hb : isMainPath b.path <;> simp

theorem fileLE_iff (a b : FileMeta) :
    fileLE a b = true ↔
      mainRank a < mainRank b ∨
        (mainRank a = mainRank b ∧
          (pathDepth a.path < pathDepth b.path ∨
            (pathDepth a.path = pathDepth b.path ∧ a.path ≤ b.path))) := by
  unfold fileLE cmpFiles lexCompare
  by_cases hm : isMainPath a.path = isMainPath b.path
  · rw [if_neg (by simpa using hm)]
    have hr : mainRank a = mainRank b := (mainRank_eq_iff a b).mpr hm
    by_cases hd : pathDepth a.path = pathDepth b.path
    · rw [if_neg (by simpa using hd), decide_eq_true_eq]
      constructor
      · intro hle
        refine Or.inr ⟨hr, Or.inr ⟨hd, ?_⟩⟩
        by_cases hab : a.path < b.path
        · exact le_of_lt hab
        · by_cases hba : b.path < a.path
          · rw [if_neg hab, if_pos hba] at hle
            omega
          · exact le_of_not_lt hba
      · intro h
        have hle : a.path ≤ b.path := by
          rcases h with hlt | ⟨-, hdl | ⟨-, hp⟩⟩
          · rw [mainRank_lt_iff] at hlt
            rw [hlt.1, hlt.2] at hm
            exact absurd hm (by simp)
          · exact absurd hdl (by omega)
          · exact hp
        by_cases hab : a.path < b.path
        · rw [if_pos hab]
          omega
        · rw [if_neg hab, if_neg (not_lt.mpr hle)]
    · rw [if_pos (by simpa using hd), decide_eq_true_eq]
      constructor
      · intro hle
        refine Or.inr ⟨hr, Or.inl ?_⟩
        omega
      · intro h
        rcases h with hlt | ⟨-, hdl | ⟨hde, -⟩⟩
        · rw [mainRank_lt_iff] at hlt
          rw [hlt.1, hlt.2] at hm
          exact absurd hm (by simp)
        · omega
        · exact absurd hde hd
  · rw [if_pos (by simpa using hm)]
    cases ha : isMainPath a.path <;> cases hb : isMainPath b.path
    · exact absurd (ha.trans hb.symm) hm
    · simp [mainRank, ha, hb]
    · simp [mainRank, ha, hb]
    · exact absurd (ha.trans hb.symm) hm
theorem fileLE_total (a b : FileMeta) : fileLE a b || fileLE b a := by
  rw [Bool.or_eq_true, fileLE_iff, fileLE_iff]
  rcases Nat.lt_trichotomy (mainRank a) (mainRank b) with h | h | h
  · exact Or.inl (Or.inl h)
  · rcases Nat.lt_trichotomy (pathDepth a.path) (pathDepth b.path) with h2 | h2 | h2
    · exact Or.inl (Or.inr ⟨h, Or.inl h2⟩)
    · rcases le_total a.path b.path with h3 | h3
      · exact Or.inl (Or.inr ⟨h, Or.inr ⟨h2, h3⟩⟩)
      · exact Or.inr (Or.inr ⟨h.symm, Or.inr ⟨h2.symm, h3⟩⟩)
    · exact Or.inr (Or.inr ⟨h.symm, Or.inl h2⟩)
  · exact Or.inr (Or.inl h)

theorem fileLE_trans (a b c : FileMeta) :
    fileLE a b → fileLE b c → fileLE a c := by
  rw [fileLE_iff, fileLE_iff, fileLE_iff]
  rintro (h1 | ⟨h1, h1'⟩) (h2 | ⟨h2, h2'⟩)
  · exact Or.inl (h1.trans h2)
  · exact Or.inl (by omega)
  · exact Or.inl (by omega)
  · refine Or.inr ⟨h1.trans h2, ?_⟩
    rcases h1' with hd1 | ⟨hd1, hp1⟩ <;> rcases h2' with hd2 | ⟨hd2, hp2⟩
    · exact Or.inl (hd1.trans hd2)
    · exact Or.inl (by omega)
    · exact Or.inl (by omega)
    · exact Or.inr ⟨hd1.trans hd2, hp1.trans hp2⟩

/-- Claim C6: the prioritizer returns a permutation of its input in which
entry-point files precede all others, non-entry files are ordered by
increasing directory depth with depth ties broken lexicographically, and
the sort is stable (any comparator-sorted sublist of the input survives
as a sublist of the output); it is a pure function of the input. -/
theorem claim_C6 (files : List FileMeta) :
    List.Perm (sortFilesByPriority files) files ∧
    (sortFilesByPriority files).Pairwise
      (fun a b => isMainPath b.path = true → isMainPath a.path = true) ∧
    (sortFilesByPriority files).Pairwise
      (fun a b => isMainPath a.path = false → isMainPath b.path = false →
        pathDepth a.path < pathDepth b.path ∨
          (pathDepth a.path = pathDepth b.path ∧ a.path ≤ b.path)) ∧
    (∀ c : List FileMeta, c.Pairwise (fun a b => fileLE a b = true) →
      List.Sublist c files → List.Sublist c (sortFilesByPriority files)) := by
  have hsorted : (sortFilesByPriority files).Pairwise (fun a b => fileLE a b = true) :=
    List.sorted_mergeSort fileLE_trans fileLE_total files
  refine ⟨List.mergeSort_perm files fileLE, ?_, ?_, ?_⟩
  · refine hsorted.imp ?_
    intro a b hab hb
    rcases (fileLE_iff a b).mp hab with h | ⟨h, -⟩ <;>
      · unfold mainRank at h
        simp only [hb] at h
        cases hx : isMainPath a.path
        · simp [hx] at h
        · rfl
  · refine hsorted.imp ?_
    intro a b hab ha hb
    rcases (fileLE_iff a b).mp hab with h | ⟨-, h⟩
    · unfold mainRank at h
      simp [ha, hb] at h
    · exact h
  · intro c hc hsub
    exact List.sublist_mergeSort fileLE_trans fileLE_total hc hsub

/-- Witness for C6: a concrete run of the prioritizer; the singleton
entry-point sublist is sorted, hence survives in the output. -/
theorem claim_C6_witness :
    List.Perm (sortFilesByPriority [⟨"src/util.py", 0⟩, ⟨"main.py", 1⟩])
        [⟨"src/util.py", 0⟩, ⟨"main.py", 1⟩] ∧
    List.Sublist [(⟨"main.py", 1⟩ : FileMeta)]
        (sortFilesByPriority [⟨"src/util.py", 0⟩, ⟨"main.py", 1⟩]) :=
  ⟨(claim_C6 [⟨"src/util.py", 0⟩, ⟨"main.py", 1⟩]).1,
    (claim_C6 [⟨"src/util.py", 0⟩, ⟨"main.py", 1⟩]).2.2.2
      [⟨"main.py", 1⟩] (by decide) (by decide)⟩

/-! ## Result combiner (`combineReviewResults`) -/

/-- Result of the batch completion call (`{success, review?/error?}`). -/
inductive BatchResult where
  | ok (review : String)
  | err (error : String)
deriving DecidableEq, Repr

/-- `Array.prototype.join("\n")`. -/
def joinLines : List String → String
  | [] => ""
  | [p] => p
  | p :: q :: ps => p ++ "\n" ++ joinLines (q :: ps)

/-- Fixed summary text up to the total file count (source lines 468–470). -/
def statsHeader : String :=
  "\n\n---\n\n### 🔍 审核摘要\n\n**统计信息**\n* **仓库文件总数**: "

/-- Fixed summary text between the two counters (source lines 470–471). -/
def statsMid : String := " 个 Python 文件\n* **已选择审核文件**: "

/-- Fixed text before the selected-path listing (source line 472). -/
def fileListHeader : String := "\n**已发送至 AI 审核的文件清单**\n```\n"

/-- Fixed text closing the selected-path listing (source line 474). -/
def fileListFooter : String := "\n```\n"

/-- The partial-review note (source line 477). -/
def partialNote : String :=
  "\n*注意：由于项目规模或Token限制，本次仅审核了部分优先文件。以上报告内容由 AI 直接生成。*"

/-- `combineReviewResults` (source lines 455–481); the `+=` chain of the
summary is flattened associatively. -/
def combineReviewResults (reviewResult : BatchResult) (totalFileCount : Nat)
    (selectedFiles : List FetchedFile) : BatchResult :=
  match reviewResult with
  | .err e =>
    .err (if e = "" then "Code review failed and no specific error was provided." else e)
  | .ok raw =>
    .ok (raw ++ statsHeader ++ Nat.repr totalFileCount ++ statsMid
      ++ Nat.repr selectedFiles.length ++ " / " ++ Nat.repr totalFileCount
      ++ fileListHeader ++ joinLines (selectedFiles.map (fun f => f.path))
      ++ fileListFooter
      ++ (if selectedFiles.length < totalFileCount then partialNote else ""))

theorem digitChar_isDigit {m : Nat} (h : m < 10) :
    (Nat.digitChar m).isDigit = true := by
  interval_cases m <;> decide

theorem toDigitsCore_digits :
    ∀ (fuel n : Nat) (acc : List Char),
      (∀ c ∈ acc, c.isDigit = true) →
      ∀ c ∈ Nat.toDigitsCore 10 fuel n acc, c.isDigit = true := by
  intro fuel
  induction fuel with
  | zero => intro n acc hacc c hc; exact hacc c hc
  | succ fuel ih =>
    intro n acc hacc c hc
    simp only [Nat.toDigitsCore] at hc
    by_cases hz : n / 10 = 0
    · rw [if_pos hz] at hc
      rcases List.mem_cons.mp hc with rfl | hmem
      · exact digitChar_isDigit (Nat.mod_lt _ (by norm_num))
      · exact hacc c hmem
    · rw [if_neg hz] at hc
      refine ih (n / 10) _ ?_ c hc
      intro d hd
      rcases List.mem_cons.mp hd with rfl | hmem
      · exact digitChar_isDigit (Nat.mod_lt _ (by norm_num))
      · exact hacc d hmem

theorem repr_chars_isDigit (n : Nat) :
    ∀ c ∈ (Nat.repr n).toList, c.isDigit = true := by
  intro c hc
  have : (Nat.repr n).toList = Nat.toDigits 10 n := by
    show (Nat.toDigits 10 n).asString.toList = Nat.toDigits 10 n
    exact List.toList_asString _
  rw [this] at hc
  exact toDigitsCore_digits (n + 1) n [] (by simp) c hc

theorem mem_joinLines (c : Char) :
    ∀ ps : List String, c ∈ (joinLines ps).toList →
      c = '\n' ∨ ∃ p ∈ ps, c ∈ p.toList := by
  intro ps
  induction ps with
  | nil => intro h; simp [joinLines] at h
  | cons p ps ih =>
    intro h
    match ps, h with
    | [], h => exact Or.inr ⟨p, List.mem_singleton_self p, h⟩
    | q :: ps', h =>
      simp only [joinLines] at h
      have : (p ++ "\n" ++ joinLines (q :: ps')).toList
          = p.toList ++ '\n' :: (joinLines (q :: ps')).toList := by
        show (p ++ "\n" ++ joinLines (q :: ps')).data
          = p.data ++ '\n' :: (joinLines (q :: ps')).data
        rw [String.data_append, String.data_append, List.append_assoc]
        rfl
      rw [this] at h
      rcases List.mem_append.mp h with h1 | h1
      · exact Or.inr ⟨p, List.mem_cons_self _ _, h1⟩
      · rcases List.mem_cons.mp h1 with rfl | h2
        · exact Or.inl rfl
        · rcases ih h2 with h3 | ⟨x, hx, hcx⟩
          · exact Or.inl h3
          · exact Or.inr ⟨x, List.mem_cons_of_mem _ hx, hcx⟩

theorem infix_joinLines (x : String) :
    ∀ ps : List String, x ∈ ps → x.toList <:+: (joinLines ps).toList := by
  intro ps
  induction ps with
  | nil => intro h; simp at h
  | cons p ps ih =>
    intro h
    match ps with
    | [] =>
      obtain rfl : x = p := by simpa using h
      exact List.infix_rfl
    | q :: ps' =>
      have hsplit : (joinLines (p :: q :: ps')).toList
          = p.toList ++ '\n' :: (joinLines (q :: ps')).toList := by
        show (p ++ "\n" ++ joinLines (q :: ps')).data
          = p.data ++ '\n' :: (joinLines (q :: ps')).data
        rw [String.data_append, String.data_append, List.append_assoc]
        rfl
      rcases List.mem_cons.mp h with rfl | h2
      · rw [hsplit]
        exact ⟨[], '\n' :: (joinLines (q :: ps')).toList, by simp⟩
      · rw [hsplit]
        exact (ih h2).trans ⟨p.toList ++ ['\n'], [], by simp⟩

/-- Claim C9: on a successful completion result the combiner returns
success whose text appends a summary containing the literal fraction
`n / totalFileCount` and every selected path, with the partial-review
note present exactly when `n < totalFileCount` (absent whenever the
review text and paths do not themselves carry the note's marker
character); on an unsuccessful result it returns a failure outcome with a
nonempty diagnostic message and fabricates no review content. -/
theorem claim_C9 :
    (∀ (raw : String) (totalFileCount : Nat) (selectedFiles : List FetchedFile),
      ∃ t, combineReviewResults (.ok raw) totalFileCount selectedFiles = .ok t ∧
        containsStr t
          (Nat.repr selectedFiles.length ++ " / " ++ Nat.repr totalFileCount) = true ∧
        (∀ f ∈ selectedFiles, containsStr t f.path = true) ∧
        (selectedFiles.length < totalFileCount → containsStr t partialNote = true) ∧
        (totalFileCount ≤ selectedFiles.length → '注' ∉ raw.toList →
          (∀ f ∈ selectedFiles, '注' ∉ f.path.toList) →
          containsStr t partialNote = false)) ∧
    (∀ (e : String) (totalFileCount : Nat) (selectedFiles : List FetchedFile),
      ∃ m, combineReviewResults (.err e) totalFileCount selectedFiles = .err m ∧
        m ≠ "") := by
  constructor
  · intro raw total files
    refine ⟨_, rfl, ?_, ?_, ?_, ?_⟩
    · rw [containsStr, hasInfix_iff]
      refine ⟨(raw ++ statsHeader ++ Nat.repr total ++ statsMid).toList,
        (fileListHeader ++ joinLines (files.map (fun f => f.path)) ++ fileListFooter
          ++ (if files.length < total then partialNote else "")).toList, ?_⟩
      show _ ++ _ ++ _ = _
      simp only [String.toList, String.data_append, List.append_assoc]
    · intro f hf
      rw [containsStr, hasInfix_iff]
      have h1 : f.path.toList <:+: (joinLines (files.map (fun g => g.path))).toList :=
        infix_joinLines f.path _ (List.mem_map_of_mem _ hf)
      refine h1.trans ⟨(raw ++ statsHeader ++ Nat.repr total ++ statsMid
          ++ Nat.repr files.length ++ " / " ++ Nat.repr total ++ fileListHeader).toList,
        (fileListFooter ++ (if files.length < total then partialNote else "")).toList, ?_⟩
      show _ ++ _ ++ _ = _
      simp only [String.toList, String.data_append, List.append_assoc]
    · intro hlt
      rw [containsStr, hasInfix_iff]
      rw [if_pos hlt]
      refine ⟨(raw ++ statsHeader ++ Nat.repr total ++ statsMid
          ++ Nat.repr files.length ++ " / " ++ Nat.repr total ++ fileListHeader
          ++ joinLines (files.map (fun f => f.path)) ++ fileListFooter).toList, [], ?_⟩
      show _ ++ _ ++ _ = _
      simp only [String.toList, String.data_append, List.append_assoc, List.append_nil]
    · intro hge hraw hpaths
      by_contra hc
      rw [Bool.not_eq_false, containsStr, hasInfix_iff, if_neg (not_lt.mpr hge)] at hc
      have hz : '注' ∈ partialNote.toList := by decide
      have hmem := hc.subset hz
      simp only [String.toList, String.data_append, List.append_assoc,
        List.mem_append] at hmem
      have hdig : ∀ m : Nat, '注' ∈ (Nat.repr m).data → False := by
        intro m hm
        have := repr_chars_isDigit m '注' hm
        simp at this
      rcases hmem with h | h | h | h | h | h | h | h | h | h | h
      · exact hraw h
      · exact absurd h (by decide)
      · exact hdig total h
      · exact absurd h (by decide)
      · exact hdig files.length h
      · exact absurd h (by decide)
      · exact hdig total h
      · exact absurd h (by decide)
      · rcases mem_joinLines '注' _ h with h2 | ⟨p, hp, hcp⟩
        · exact absurd h2 (by decide)
        · obtain ⟨f, hf, rfl⟩ := List.mem_map.mp hp
          exact hpaths f hf hcp
      · exact absurd h (by decide)
      · simp at h
  · intro e total files
    by_cases he : e = ""
    · refine ⟨_, rfl, ?_⟩
      rw [if_pos he]
      decide
    · exact ⟨_, rfl, by rw [if_neg he]; exact he⟩

/-! ## Submission format validator (`validateIssueFormat`) and URL parsing -/

/-- Hostname and pathname of a parsed URL. -/
structure UrlParts where
  hostname : String
  pathname : String
deriving DecidableEq, Repr

def isAsciiAlpha (c : Char) : Bool :=
  ('a' ≤ c && c ≤ 'z') || ('A' ≤ c && c ≤ 'Z')

def isSchemeTail (c : Char) : Bool :=
  isAsciiAlpha c || c.isDigit || c == '+' || c == '-' || c == '.'

/-- Model of the WHATWG `new URL` host builtin, restricted to URLs with an
explicit `scheme://authority` form: scheme letters, `//`, authority up to
the first `/`, `?` or `#` (userinfo before the last `@` dropped, `:port`
dropped, host ASCII-lowercased), path up to `?` or `#` (empty → `/`).
Percent-decoding, IDNA and dot-segment normalization are out of model;
`none` models a thrown `TypeError`. -/
def parseURL (s : String) : Option UrlParts :=
  match s.toList with
  | [] => none
  | c :: rest =>
    if isAsciiAlpha c then
      let schemeTail := rest.takeWhile isSchemeTail
      match rest.drop schemeTail.length with
      | ':' :: '/' :: '/' :: r =>
        let auth := r.takeWhile (fun ch => ch != '/' && ch != '?' && ch != '#')
        let afterAuth := r.drop auth.length
        let hostport := (auth.reverse.takeWhile (· != '@')).reverse
        let host := hostport.takeWhile (· != ':')
        if host.isEmpty then none
        else
          let path := afterAuth.takeWhile (fun ch => ch != '?' && ch != '#')
          some { hostname := (host.map Char.toLower).asString,
                 pathname := if path.isEmpty then "/" else path.asString }
      | _ => none
    else none

/-- The owner/repo extraction of `reviewPlugin` (source lines 133–141):
`new URL(repo).pathname.split("/").filter(Boolean)` destructured into its
first two entries; `none` models the `!owner || !repo` failure and the
caught constructor throw. -/
def ownerRepoOf (repoUrl : String) : Option (String × String) :=
  match parseURL repoUrl with
  | none => none
  | some u =>
    match (splitChar '/' u.pathname.toList).filter (fun g => !g.isEmpty) with
    | o :: r :: _ => some (o.asString, r.asString)
    | _ => none

/-- A `\n`, `\r`, U+2028 or U+2029 — the characters `.` does not match. -/
def isLineTerm (c : Char) : Bool :=
  c = '\n' ∨ c = '\r' ∨ c = '\u2028' ∨ c = '\u2029'

/-- `/^\[Plugin\]\s+.+$/i.test(title)`. -/
def titleOkFormat (title : String) : Bool :=
  let cs := title.toList
  ((cs.take 8).map Char.toLower == "[plugin]".toList) &&
  (let rest := cs.drop 8
   let ws := rest.takeWhile isJsWs
   let rem := rest.drop ws.length
   !ws.isEmpty &&
     (if rem.isEmpty then
        decide (2 ≤ rest.length) && !(isLineTerm (rest.getLastD ' '))
      else rem.all (fun c => !(isLineTerm c))))

/-- `/^\[Plugin\]\s+插件名$/i.test(title)`. -/
def titlePlaceholder (title : String) : Bool :=
  let cs := title.toList
  ((cs.take 8).map Char.toLower == "[plugin]".toList) &&
  (let rest := cs.drop 8
   let ws := rest.takeWhile isJsWs
   !ws.isEmpty && (rest.drop ws.length == "插件名".toList))

/-- Test for `` `-\s*\[[xX]\]\s+<literal>` `` anywhere in the body (the
per-checkbox acknowledgement regex, source lines 504–508). -/
def matchCheckbox (lit : List Char) : List Char → Bool
  | [] => false
  | c :: cs =>
    (c == '-' &&
      (match cs.dropWhile isJsWs with
       | '[' :: x :: ']' :: b =>
         (x == 'x' || x == 'X') &&
           (let w := b.takeWhile isJsWs
            !w.isEmpty && lit.isPrefixOf (b.drop w.length))
       | _ => false))
    || matchCheckbox lit cs

/-- The three required acknowledgement literals (source lines 499–503). -/
def requiredChecks : List String :=
  ["我的插件经过完整的测试",
   "我的插件不包含恶意代码",
   "我已阅读并同意遵守该项目的 [行为准则](https://docs.github.com/zh/site-policy/github-terms/github-community-code-of-conduct)。"]

/-- First index at which ```` ``` ```` occurs. -/
def firstTripleTick : List Char → Option Nat
  | [] => none
  | c :: cs =>
    if ("```".toList).isPrefixOf (c :: cs) then some 0
    else (firstTripleTick cs).map (· + 1)

/-- ``/```json\s*([\s\S]*?)\s*```/i`` applied to the body: content of the
first ```` ```json ```` block (group 1), resolving the lazy group against
the first closing ```` ``` ````. -/
def extractJsonBlock (body : String) : Option String :=
  go body.toList
where
  go : List Char → Option String
  | [] => none
  | c :: cs =>
    if ((c :: cs).take 7).map Char.toLower == "```json".toList then
      let rest := ((c :: cs).drop 7).dropWhile isJsWs
      match firstTripleTick rest with
      | some q => some (trimEndL (rest.take q)).asString
      | none => none
    else go cs

/-- The parsed structured block (`{name, desc, repo}`); `none` models a
missing or `null` field, which is falsy like the empty string. -/
structure PluginData where
  name : Option String
  desc : Option String
  repo : Option String
deriving DecidableEq, Repr

/-- JavaScript falsiness of an optional string field. -/
def isFalsyStr : Option String → Bool
  | none => true
  | some s => s == ""

/-- Result of `validateIssueFormat`. -/
inductive ValidationResult where
  | failure (errors : List String)
  | ok (pluginData : PluginData)
deriving DecidableEq, Repr

/-- The ticket fields the validator reads (`body` models `issue.body || ""`). -/
structure IssueInput where
  title : String
  body : String
deriving DecidableEq, Repr

/-- Title errors (source lines 492–497). -/
def titleErrsOf (title : String) : List String :=
  if !(titleOkFormat title) || titlePlaceholder title then
    ["Issue标题格式不正确，应为: `[Plugin] 您的插件名`"]
  else []

/-- Unchecked-acknowledgement errors (source lines 504–509). -/
def checkErrsOf (body : String) : List String :=
  requiredChecks.filterMap (fun chk =>
    if matchCheckbox chk.toList body.toList then none
    else some ("必需的声明未勾选: \"" ++ ((chk.splitOn "](").headD chk) ++ "\""))

/-- Missing/placeholder `name` error (source lines 529–530). -/
def nameErrsOf (pd : PluginData) : List String :=
  if isFalsyStr pd.name || pd.name == some "插件名" then
    ["请在JSON中提供一个有效的 `name`。"]
  else []

/-- Missing/placeholder `desc` error (source lines 531–532). -/
def descErrsOf (pd : PluginData) : List String :=
  if isFalsyStr pd.desc || pd.desc == some "插件介绍" then
    ["请在JSON中提供一个有效的 `desc`。"]
  else []

/-- Repository URL errors (source lines 533–544). -/
def repoErrsOf (pd : PluginData) : List String :=
  match pd.repo with
  | none => ["请在JSON中提供 `repo` 仓库地址。"]
  | some r =>
    if r == "" then ["请在JSON中提供 `repo` 仓库地址。"]
    else
      match parseURL r with
      | none => ["提供的仓库URL `" ++ r ++ "` 无效。"]
      | some u =>
        if u.hostname != "github.com" then
          ["目前仅支持托管在 `github.com` 上的仓库。"]
        else []

/-- `validateIssueFormat` (source lines 488–549); `parseJson` is the
`JSON.parse` host builtin (`none` models a thrown parse error). The
sequential `errors.push` calls are factored into the per-field error
lists above, appended in source order. -/
def validateIssueFormat (parseJson : String → Option PluginData)
    (issue : IssueInput) : ValidationResult :=
  let jsonMissing :=
    "在Issue内容中未找到JSON代码块。请使用 ```json ... ``` 将插件信息包裹起来。"
  match extractJsonBlock issue.body with
  | none =>
    .failure (titleErrsOf issue.title ++ checkErrsOf issue.body ++ [jsonMissing])
  | some blk =>
    if blk == "" then
      .failure (titleErrsOf issue.title ++ checkErrsOf issue.body ++ [jsonMissing])
    else
      match parseJson blk with
      | none =>
        .failure (titleErrsOf issue.title ++ checkErrsOf issue.body
          ++ ["JSON格式错误。请检查语法，如逗号、引号是否正确。"])
      | some pd =>
        let allErrs := titleErrsOf issue.title ++ checkErrsOf issue.body
          ++ nameErrsOf pd ++ descErrsOf pd ++ repoErrsOf pd
        if allErrs.isEmpty then .ok pd else .failure allErrs

/-- A ticket body with all three acknowledgement boxes checked and a
minimal JSON block. -/
def ackBody : String :=
  "- [x] 我的插件经过完整的测试\n- [x] 我的插件不包含恶意代码\n- [x] 我已阅读并同意遵守该项目的 [行为准则](https://docs.github.com/zh/site-policy/github-terms/github-community-code-of-conduct)。\n```json\nx\n```"

/-- Counterexample to C8: the ticket with repository URL
`https://github.com` is accepted by the validator (the URL parses and is
on the expected host), yet the pipeline's owner/repo parse fails on it. -/
theorem claim_C8_counterexample :
    validateIssueFormat (fun _ => some ⟨some "Foo", some "d", some "https://github.com"⟩)
        ⟨"[Plugin] Foo", ackBody⟩ =
      .ok ⟨some "Foo", some "d", some "https://github.com"⟩ ∧
    ownerRepoOf "https://github.com" = none := by
  constructor
  · decide
  · decide

/-- Claim C8 (amended): validator success guarantees non-placeholder,
non-falsy name and description and a repository URL that parses with
hostname `github.com`; when that URL's pathname has at least two nonempty
segments the pipeline derives owner and repo as the first two — but
validator-accepted URLs with fewer segments still fail the pipeline
parse, so the original "never fails" clause does not hold. -/
theorem claim_C8_amended (parseJson : String → Option PluginData) (issue : IssueInput)
    (pd : PluginData) (h : validateIssueFormat parseJson issue = .ok pd) :
    (isFalsyStr pd.name = false ∧ pd.name ≠ some "插件名") ∧
    (isFalsyStr pd.desc = false ∧ pd.desc ≠ some "插件介绍") ∧
    ∃ r u, pd.repo = some r ∧ parseURL r = some u ∧ u.hostname = "github.com" ∧
      ∀ o rp rest,
        (splitChar '/' u.pathname.toList).filter (fun g => !g.isEmpty)
          = o :: rp :: rest →
        ownerRepoOf r = some (o.asString, rp.asString) := by
  unfold validateIssueFormat at h
  cases hext : extractJsonBlock issue.body with
  | none => rw [hext] at h; exact absurd h (by simp)
  | some blk =>
    rw [hext] at h
    dsimp only at h
    by_cases hblk : (blk == "") = true
    · rw [if_pos hblk] at h; exact absurd h (by simp)
    · rw [if_neg hblk] at h
      cases hpj : parseJson blk with
      | none => rw [hpj] at h; exact absurd h (by simp)
      | some pd' =>
        rw [hpj] at h
        simp only at h
        by_cases hemp : (titleErrsOf issue.title ++ checkErrsOf issue.body
            ++ nameErrsOf pd' ++ descErrsOf pd' ++ repoErrsOf pd').isEmpty = true
        · rw [if_pos hemp] at h
          obtain rfl : pd' = pd := by injection h
          rw [List.isEmpty_iff] at hemp
          simp only [List.append_eq_nil] at hemp
          obtain ⟨⟨⟨⟨-, -⟩, hname⟩, hdesc⟩, hrepo⟩ := hemp
          refine ⟨?_, ?_, ?_⟩
          · unfold nameErrsOf at hname
            cases hc : (isFalsyStr pd'.name || pd'.name == some "插件名") with
            | true => rw [if_pos hc] at hname; exact absurd hname (by simp)
            | false =>
              rcases Bool.or_eq_false_iff.mp hc with ⟨h1, h2⟩
              exact ⟨h1, by simpa using h2⟩
          · unfold descErrsOf at hdesc
            cases hc : (isFalsyStr pd'.desc || pd'.desc == some "插件介绍") with
            | true => rw [if_pos hc] at hdesc; exact absurd hdesc (by simp)
            | false =>
              rcases Bool.or_eq_false_iff.mp hc with ⟨h1, h2⟩
              exact ⟨h1, by simpa using h2⟩
          · unfold repoErrsOf at hrepo
            cases hr : pd'.repo with
            | none => rw [hr] at hrepo; exact absurd hrepo (by simp)
            | some r =>
              rw [hr] at hrepo
              dsimp only at hrepo
              by_cases hre : (r == "") = true
              · rw [if_pos hre] at hrepo; exact absurd hrepo (by simp)
              · rw [if_neg hre] at hrepo
                cases hu : parseURL r with
                | none => rw [hu] at hrepo; exact absurd hrepo (by simp)
                | some u =>
                  rw [hu] at hrepo
                  dsimp only at hrepo
                  by_cases hh : (u.hostname != "github.com") = true
                  · rw [if_pos hh] at hrepo; exact absurd hrepo (by simp)
                  · have hhost : u.hostname = "github.com" := by
                      simpa using hh
                    refine ⟨r, u, rfl, hu, hhost, ?_⟩
                    intro o rp rest hsegs
                    unfold ownerRepoOf
                    rw [hu]
                    dsimp only
                    rw [hsegs]
        · rw [if_neg hemp] at h
          exact absurd h (by simp)

/-- Witness for the amended C8: the `https://github.com/acme/foo` ticket
passes validation and the pipeline derives `owner=acme, repo=foo`. -/
theorem claim_C8_witness :
    validateIssueFormat
        (fun _ => some ⟨some "Foo", some "d", some "https://github.com/acme/foo"⟩)
        ⟨"[Plugin] Foo", ackBody⟩ =
      .ok ⟨some "Foo", some "d", some "https://github.com/acme/foo"⟩ ∧
    ownerRepoOf "https://github.com/acme/foo" = some ("acme", "foo") := by
  refine ⟨by decide, ?_⟩
  obtain ⟨-, -, r, u, hr, hu, -, hseg⟩ :=
    claim_C8_amended
      (fun _ => some ⟨some "Foo", some "d", some "https://github.com/acme/foo"⟩)
      ⟨"[Plugin] Foo", ackBody⟩
      ⟨some "Foo", some "d", some "https://github.com/acme/foo"⟩ (by decide)
  obtain rfl : r = "https://github.com/acme/foo" := by
    have := hr.symm
    injection this
  have hu2 : parseURL "https://github.com/acme/foo"
      = some ⟨"github.com", "/acme/foo"⟩ := by decide
  obtain rfl : u = ⟨"github.com", "/acme/foo"⟩ := by
    rw [hu] at hu2
    exact Option.some.inj hu2
  exact hseg "acme".toList "foo".toList [] (by decide)

/-- Witness for C9: the combiner run on concrete inputs, with the
partial-review note present for 1 of 2 files and absent for 1 of 1. -/
theorem claim_C9_witness :
    (∃ t, combineReviewResults (.ok "review") 2 [⟨"main.py", "x=1"⟩] = .ok t ∧
      containsStr t (Nat.repr 1 ++ " / " ++ Nat.repr 2) = true ∧
      containsStr t partialNote = true) ∧
    (∃ t, combineReviewResults (.ok "review") 1 [⟨"main.py", "x=1"⟩] = .ok t ∧
      containsStr t partialNote = false) := by
  constructor
  · obtain ⟨t, h1, h2, -, h4, -⟩ := claim_C9.1 "review" 2 [⟨"main.py", "x=1"⟩]
    exact ⟨t, h1, h2, h4 (by decide)⟩
  · obtain ⟨t, h1, -, -, -, h5⟩ := claim_C9.1 "review" 1 [⟨"main.py", "x=1"⟩]
    refine ⟨t, h1, h5 (by decide) (by decide) ?_⟩
    intro f hf
    obtain rfl : f = ⟨"main.py", "x=1"⟩ := by simpa using hf
    decide

/-! ## Orchestrator: markers, re-trigger checkbox, review-options section -/

/-- `p` holds at some position (suffix) of the list — regex `test`. -/
def anyPos (p : List Char → Bool) : List Char → Bool
  | [] => p []
  | c :: cs => p (c :: cs) || anyPos p cs

theorem anyPos_false (p : List Char → Bool) :
    ∀ s : List Char, anyPos p s = false → ∀ i, p (s.drop i) = false := by
  intro s
  induction s with
  | nil =>
    intro h i
    rw [List.drop_nil]
    simpa [anyPos] using h
  | cons c cs ih =>
    intro h i
    rcases Bool.or_eq_false_iff.mp (by simpa [anyPos] using h) with ⟨h1, h2⟩
    match i with
    | 0 => exact h1
    | i + 1 => exact ih h2 i

theorem anyPos_true_of_drop (p : List Char → Bool) :
    ∀ (s : List Char) (i : Nat), p (s.drop i) = true → anyPos p s = true := by
  intro s
  induction s with
  | nil =>
    intro i h
    rw [List.drop_nil] at h
    simpa [anyPos] using h
  | cons c cs ih =>
    intro i h
    match i with
    | 0 =>
      simp only [anyPos, Bool.or_eq_true]
      exact Or.inl (by simp only [List.drop_zero] at h; exact h)
    | i + 1 =>
      simp only [anyPos, Bool.or_eq_true]
      exact Or.inr (ih i h)

/-- Match of `/##\s*(⏳|⚠️|❌|🤖)/` at the head of the list. -/
def statusMarkerAt (cs : List Char) : Bool :=
  match cs with
  | '#' :: '#' :: rest =>
    let r := rest.dropWhile isJsWs
    ("⏳".toList).isPrefixOf r || ("⚠️".toList).isPrefixOf r ||
      ("❌".toList).isPrefixOf r || ("🤖".toList).isPrefixOf r
  | _ => false

/-- `/##\s*(⏳|⚠️|❌|🤖)/.test(body)` (source line 204). -/
def statusMarkerTest (s : String) : Bool := anyPos statusMarkerAt s.toList

/-- A ticket comment as the engine reads it. -/
structure BotComment where
  id : Nat
  isBot : Bool
  body : String
deriving DecidableEq, Repr

/-- `findLastReviewComment` (source lines 191–211): last bot comment whose
body carries one of the four status markers. -/
def findLastReviewComment (comments : List BotComment) : Option BotComment :=
  comments.reverse.find? (fun c => c.isBot && statusMarkerTest c.body)

/-- The Success status marker checked by the edit guard (source line 39). -/
def successMarker : String := "## 🤖 AI代码审核报告"

/-- The Started status marker checked by the edit guard (source line 40). -/
def startedMarker : String := "## ⏳ 正在审核中..."

/-- Match of `/[-*]\s*\[[xX]\]\s*重新提交审核/` at the head. -/
def retriggerAt (cs : List Char) : Bool :=
  match cs with
  | [] => false
  | d :: cs1 =>
    (d == '-' || d == '*') &&
      (match cs1.dropWhile isJsWs with
       | '[' :: x :: ']' :: b =>
         (x == 'x' || x == 'X') &&
           ("重新提交审核".toList).isPrefixOf (b.dropWhile isJsWs)
       | _ => false)

/-- `/[-*]\s*\[[xX]\]\s*重新提交审核/.test(body)` (source line 41). -/
def retriggerChecked (s : String) : Bool := anyPos retriggerAt s.toList

/-- One match of `/([-*]\s*\[)[xX](\]\s*重新提交审核)/` at the head,
returning the `$1 $2` replacement and the rest of the input. -/
def uncheckMatchAt (cs : List Char) : Option (List Char × List Char) :=
  match cs with
  | [] => none
  | d :: cs1 =>
    if d == '-' || d == '*' then
      match cs1.dropWhile isJsWs with
      | '[' :: x :: ']' :: b =>
        if x == 'x' || x == 'X' then
          let w2 := b.takeWhile isJsWs
          let b2 := b.dropWhile isJsWs
          if ("重新提交审核".toList).isPrefixOf b2 then
            some (d :: (cs1.takeWhile isJsWs ++
                ('[' :: ' ' :: ']' :: (w2 ++ "重新提交审核".toList))),
              b2.drop 6)
          else none
        else none
      | _ => none
    else none

theorem uncheckMatchAt_some_length (cs : List Char) (rep rest : List Char)
    (h : uncheckMatchAt cs = some (rep, rest)) : rest.length < cs.length := by
  unfold uncheckMatchAt at h
  split at h
  · exact absurd h (by simp)
  · rename_i d cs1
    split at h
    · split at h
      · rename_i x b hdrop
        split at h
        · dsimp only at h
          split at h
          · obtain ⟨-, hrest⟩ := Prod.mk.injEq .. ▸ Option.some.inj h
            have h1 : ('[' :: x :: ']' :: b).length ≤ cs1.length := by
              rw [← hdrop]
              exact (List.dropWhile_sublist _).length_le
            have h2 : (b.dropWhile isJsWs).length ≤ b.length :=
              (List.dropWhile_sublist _).length_le
            have h3 : rest.length ≤ (b.dropWhile isJsWs).length := by
              rw [← hrest]
              simp only [List.length_drop]
              omega
            simp only [List.length_cons] at h1 ⊢
            omega
          · exact absurd h (by simp)
        · exact absurd h (by simp)
      · exact absurd h (by simp)
    · exact absurd h (by simp)

/-- Global replace of the checked re-trigger box regex with `$1 $2`
(source lines 50–53): every checked `重新提交审核` box becomes unchecked. -/
def replaceUncheck : List Char → List Char
  | [] => []
  | c :: cs =>
    match h : uncheckMatchAt (c :: cs) with
    | some (rep, rest) => rep ++ replaceUncheck rest
    | none => c :: replaceUncheck cs
termination_by l => l.length
decreasing_by
  · simpa using uncheckMatchAt_some_length (c :: cs) rep rest h
  · simp

/-- The body rewrite performed on a qualifying edit (source lines 50–53). -/
def uncheckRetrigger (s : String) : String := (replaceUncheck s.toList).asString

/-- `审核选项` — the review-options section title. -/
def secTitle : List Char := "审核选项".toList

/-- `重新提交审核` — the re-trigger checkbox label. -/
def grpRetrig : List Char := "重新提交审核".toList

/-- Deterministic match of
`/\n*##\s*审核选项\s*(\n*-\s*\[[ xX]\]\s*重新提交审核\s*)?/` at the head of
the list, returning the rest of the input after the match. The optional
group either matches starting at the first non-whitespace position after
the title (its leading `\n*` being absorbed by the preceding greedy
`\s*`, which it can only duplicate) or matches empty. -/
def sectionMatchAt (cs : List Char) : Option (List Char) :=
  match cs.dropWhile (· == '\n') with
  | '#' :: '#' :: c2 =>
    let c3 := c2.dropWhile isJsWs
    if secTitle.isPrefixOf c3 then
      let c4 := (c3.drop 4).dropWhile isJsWs
      match c4 with
      | '-' :: c5 =>
        (match c5.dropWhile isJsWs with
         | '[' :: x :: ']' :: c6 =>
           if x == ' ' || x == 'x' || x == 'X' then
             let c7 := c6.dropWhile isJsWs
             if grpRetrig.isPrefixOf c7 then
               some ((c7.drop 6).dropWhile isJsWs)
             else some c4
           else some c4
         | _ => some c4)
      | _ => some c4
    else none
  | _ => none

theorem sectionMatchAt_some_length (cs r : List Char)
    (h : sectionMatchAt cs = some r) : r.length < cs.length := by
  unfold sectionMatchAt at h
  split at h
  case h_2 => exact absurd h (by simp)
  case h_1 c2 heq =>
    have hc2 : c2.length + 2 ≤ cs.length := by
      have := (List.dropWhile_sublist (l := cs) (· == '\n')).length_le
      rw [heq] at this
      simpa using this
    have hc3 : (c2.dropWhile isJsWs).length ≤ c2.length :=
      (List.dropWhile_sublist _).length_le
    dsimp only at h
    split at h
    case isFalse => exact absurd h (by simp)
    case isTrue hpre =>
      have hplen : 4 ≤ (c2.dropWhile isJsWs).length := by
        have h0 := (List.isPrefixOf_iff_prefix.mp hpre).length_le
        have h0' : secTitle.length = 4 := by decide
        omega
      have hc4 : (((c2.dropWhile isJsWs).drop 4).dropWhile isJsWs).length + 4
          ≤ c2.length := by
        have h1 : (((c2.dropWhile isJsWs).drop 4).dropWhile isJsWs).length
            ≤ ((c2.dropWhile isJsWs).drop 4).length :=
          (List.dropWhile_sublist _).length_le
        have h2 : ((c2.dropWhile isJsWs).drop 4).length
            = (c2.dropWhile isJsWs).length - 4 := List.length_drop ..
        omega
      split at h
      case h_2 =>
        obtain rfl := Option.some.inj h
        omega
      case h_1 c5 heq5 =>
        have hc5 : c5.length + 1
            = (((c2.dropWhile isJsWs).drop 4).dropWhile isJsWs).length := by
          rw [heq5]
          rfl
        split at h
        case h_2 =>
          obtain rfl := Option.some.inj h
          omega
        case h_1 x c6 heq6 =>
          have hc6 : c6.length + 3 ≤ c5.length := by
            have := (List.dropWhile_sublist (l := c5) isJsWs).length_le
            rw [heq6] at this
            simpa using this
          split at h
          case isFalse =>
            obtain rfl := Option.some.inj h
            omega
          case isTrue =>
            split at h
            case isFalse =>
              obtain rfl := Option.some.inj h
              omega
            case isTrue =>
              obtain rfl := Option.some.inj h
              have h7 : ((c6.dropWhile isJsWs).drop 6).length ≤ c6.length := by
                have h8 : (c6.dropWhile isJsWs).length ≤ c6.length :=
                  (List.dropWhile_sublist _).length_le
                have h9 := List.length_drop 6 (c6.dropWhile isJsWs)
                omega
              have h10 : (((c6.dropWhile isJsWs).drop 6).dropWhile isJsWs).length
                  ≤ ((c6.dropWhile isJsWs).drop 6).length :=
                (List.dropWhile_sublist _).length_le
              omega

/-- `.test` of the review-options section regex. -/
def hasSectionL (s : List Char) : Bool :=
  anyPos (fun t => (sectionMatchAt t).isSome) s

/-- Number of (non-overlapping, leftmost) matches of the section regex. -/
def countSectionsL : List Char → Nat
  | [] => 0
  | c :: cs =>
    match h : sectionMatchAt (c :: cs) with
    | some rest => 1 + countSectionsL rest
    | none => countSectionsL cs
termination_by l => l.length
decreasing_by
  · simpa using sectionMatchAt_some_length (c :: cs) rest h
  · simp

/-- Global replace of the section regex with the empty string. -/
def removeSectionsL : List Char → List Char
  | [] => []
  | c :: cs =>
    match h : sectionMatchAt (c :: cs) with
    | some rest => removeSectionsL rest
    | none => c :: removeSectionsL cs
termination_by l => l.length
decreasing_by
  · simpa using sectionMatchAt_some_length (c :: cs) rest h
  · simp

/-- `reReviewSectionRegex.test(issueBody)` (source lines 638–640). -/
def hasSection (s : String) : Bool := hasSectionL s.toList

/-- Count of section matches in a body. -/
def countSections (s : String) : Nat := countSectionsL s.toList

/-- `issueBody.replace(reReviewSectionRegex, "")` (source line 656). -/
def removeSections (s : String) : String := (removeSectionsL s.toList).asString

/-- The section text appended on failure outcomes (source line 644),
with the checkbox state as a parameter (`[ ]`, `[x]` or `[X]`). -/
def secListWith (box : Char) : List Char :=
  ['\n', '\n', '#', '#', ' ', '审', '核', '选', '项', '\n', '\n', '-', ' ', '[',
    box, ']', ' ', '重', '新', '提', '交', '审', '核']

/-- String form of `secListWith`. -/
def sectionWith (box : Char) : String := (secListWith box).asString

/-- `\n\n## 审核选项\n\n- [ ] 重新提交审核` — the appended section text. -/
def reviewOptionsSection : String := "\n\n## 审核选项\n\n- [ ] 重新提交审核"

/-! ## Orchestrator: comment templates, effects, handlers -/

/-- The comment type plus its template data (source lines 560–595). -/
inductive CommentMsg where
  | started
  | formatError (errors : List String)
  | failure (error : String)
  | success (pluginData : PluginData) (review : String)
deriving DecidableEq, Repr

/-- `title\n\nbody\n\n---\n\nfooter` (source line 603). -/
def commentText (title body footer : String) : String :=
  title ++ "\n\n" ++ body ++ "\n\n---\n\n" ++ footer

/-- The shared footer of the failure templates. -/
def retriggerFooter : String :=
  "*请根据上述问题进行修改。修改完成后，请在 **Issue 正文** 中勾选\"重新提交审核\"复选框以再次触发审核。*\n\n*此消息由系统自动生成*"

/-- `data.pluginData?.name || "Unknown Plugin"`. -/
def resolvedName (pd : PluginData) : String :=
  match pd.name with
  | some n => if n == "" then "Unknown Plugin" else n
  | none => "Unknown Plugin"

/-- The rendered comment body per template (source lines 561–603). -/
def bodyOf : CommentMsg → String
  | .started =>
    commentText "## ⏳ 正在审核中..."
      "机器人正在努力审核您的插件代码，这可能需要几分钟时间。请稍候..."
      "*此消息由系统自动生成*"
  | .formatError errs =>
    commentText "## ⚠️ 插件提交格式错误"
      ("您好！您的插件提交格式存在问题，无法进行自动审核。请根据以下指南修正：\n\n"
        ++ joinLines (errs.map (fun e => "- " ++ e)))
      retriggerFooter
  | .failure err =>
    commentText "## ❌ 插件审核失败"
      ("您好！在对您的插件进行审核时遇到了技术问题：\n\n```\n"
        ++ (if err == "" then "未知错误" else err) ++ "\n```")
      retriggerFooter
  | .success pd review =>
    commentText ("## 🤖 AI代码审核报告 for " ++ resolvedName pd)
      ("你好！我已经对你提交的插件代码进行了初步自动化审核：\n\n"
        ++ (if review == "" then "无审核内容" else review))
      "*此报告由AI自动生成，旨在提供初步反馈和改进建议，不能完全替代人工审核。最终决策以社区维护者的人工审核为准。*"

/-- Writes issued against the ticket tracker. -/
inductive Effect where
  | updateIssue (body : String)
  | createComment (id : Nat) (body : String)
  | updateComment (id : Nat) (body : String)
deriving DecidableEq, Repr

/-- `updateIssueBodyForReviewOptions` (source lines 634–667) as a body
transform: `some newBody` when the handler issues a ticket-body update,
`none` when it leaves the body alone. It reads the payload body. -/
def reviewOptionsBody (issueBody : String) : CommentMsg → Option String
  | .formatError _ | .failure _ =>
    if hasSection issueBody then none
    else some (jsTrim issueBody ++ reviewOptionsSection)
  | .success _ _ =>
    if hasSection issueBody then some (jsTrim (removeSections issueBody))
    else none
  | .started => none

/-- `postOrUpdateComment` (source lines 560–627): updates the comment when
`isUpdate` and a comment id are present, else creates one (`freshId` is
the tracker-assigned id of a created comment); afterwards applies the
review-options body update. Returns the effects and the live comment id. -/
def postOrUpdateComment (msg : CommentMsg) (isUpdate : Bool)
    (commentId : Option Nat) (payloadBody : String) (freshId : Nat) :
    List Effect × Option Nat :=
  let b := bodyOf msg
  let main : List Effect × Option Nat :=
    match commentId, isUpdate with
    | some cid, true => ([Effect.updateComment cid b], some cid)
    | _, _ => ([Effect.createComment freshId b], some freshId)
  (main.1 ++ (match reviewOptionsBody payloadBody msg with
      | some nb => [Effect.updateIssue nb]
      | none => []), main.2)

/-- `handlePluginReview` (source lines 74–122): post/update the Started
comment, validate, then post the outcome comment in place. `reviewRes` is
the oracle outcome of `reviewPlugin` (the external pipeline). -/
def handlePluginReview (issue : IssueInput) (parseJson : String → Option PluginData)
    (reviewRes : BatchResult) (isUpdate : Bool) (commentId : Option Nat)
    (freshId : Nat) : List Effect :=
  let r1 := postOrUpdateComment .started isUpdate commentId issue.body freshId
  let followup : CommentMsg :=
    match validateIssueFormat parseJson issue with
    | .failure errs => .formatError errs
    | .ok pd =>
      match reviewRes with
      | .ok review => .success pd review
      | .err e => .failure e
  r1.1 ++ (postOrUpdateComment followup true r1.2 issue.body freshId).1

/-- The edit-qualification guard of the `issues.edited` branch (source
lines 33–44), as a predicate: a prior status comment exists, it carries
neither the Success nor the Started marker, and the re-trigger box is
checked. -/
def shouldProcessEdit (comments : List BotComment) (body : String) : Bool :=
  match findLastReviewComment comments with
  | none => false
  | some c =>
    !(containsStr c.body successMarker) && !(containsStr c.body startedMarker) &&
      retriggerChecked body

/-- The `issues.opened` / `issues.edited` handler (source lines 22–65):
label filter, edit qualification, write-before-process uncheck, then the
review pipeline. -/
def handleIssueEvent (action : String) (labels : List String) (issue : IssueInput)
    (comments : List BotComment) (parseJson : String → Option PluginData)
    (reviewRes : BatchResult) (freshId : Nat) : List Effect :=
  if !(labels.contains "plugin-publish") then []
  else if action == "edited" then
    match findLastReviewComment comments with
    | none => []
    | some c =>
      if containsStr c.body successMarker || containsStr c.body startedMarker ||
          !(retriggerChecked issue.body) then []
      else
        Effect.updateIssue (uncheckRetrigger issue.body)
          :: handlePluginReview issue parseJson reviewRes true (some c.id) freshId
  else handlePluginReview issue parseJson reviewRes false none freshId

theorem containsStr_append_left (pre t : String) : containsStr (pre ++ t) pre = true := by
  rw [containsStr, hasInfix_iff]
  refine ⟨[], t.toList, ?_⟩
  show [] ++ pre.toList ++ t.toList = (pre ++ t).toList
  simp only [List.nil_append]
  exact (String.data_append pre t).symm

theorem successBody_marker (pd : PluginData) (review : String) :
    containsStr (bodyOf (.success pd review)) successMarker = true := by
  have key : bodyOf (.success pd review) = successMarker ++
      (" for " ++ resolvedName pd ++ ("\n\n" ++
        (("你好！我已经对你提交的插件代码进行了初步自动化审核：\n\n"
            ++ (if (review == "") = true then "无审核内容" else review)) ++
          ("\n\n---\n\n" ++
            "*此报告由AI自动生成，旨在提供初步反馈和改进建议，不能完全替代人工审核。最终决策以社区维护者的人工审核为准。*")))) := by
    show commentText _ _ _ = _
    unfold commentText
    have hlit : ("## 🤖 AI代码审核报告 for " : String) = successMarker ++ " for " := by
      decide
    rw [hlit]
    simp [String.append_assoc]
  rw [key]
  exact containsStr_append_left _ _

theorem startedBody_marker :
    containsStr (bodyOf .started) startedMarker = true := by
  have key : bodyOf .started = startedMarker ++
      ("\n\n" ++ ("机器人正在努力审核您的插件代码，这可能需要几分钟时间。请稍候..." ++
        ("\n\n---\n\n" ++ "*此消息由系统自动生成*"))) := by
    show commentText _ _ _ = _
    unfold commentText
    simp [String.append_assoc, startedMarker]
  rw [key]
  exact containsStr_append_left _ _

/-- Claim C3: an edit starts a review cycle only when a prior status
comment exists, it is neither a Success nor a Started comment, and the
re-trigger box is checked; Success- or Started-rendered last comments
never qualify, while FormatError/Failure-rendered ones (carrying neither
marker) qualify exactly when the box is checked. -/
theorem claim_C3 :
    (∀ (comments : List BotComment) (body : String),
      shouldProcessEdit comments body = true →
        ∃ c, findLastReviewComment comments = some c ∧
          containsStr c.body successMarker = false ∧
          containsStr c.body startedMarker = false ∧
          retriggerChecked body = true) ∧
    (∀ (comments : List BotComment) (body : String) (c : BotComment)
        (pd : PluginData) (review : String),
      findLastReviewComment comments = some c →
      c.body = bodyOf (.success pd review) →
      shouldProcessEdit comments body = false) ∧
    (∀ (comments : List BotComment) (body : String) (c : BotComment),
      findLastReviewComment comments = some c →
      c.body = bodyOf .started →
      shouldProcessEdit comments body = false) ∧
    (∀ (comments : List BotComment) (body : String) (c : BotComment)
        (msg : CommentMsg),
      findLastReviewComment comments = some c →
      c.body = bodyOf msg →
      ((∃ errs, msg = .formatError errs) ∨ (∃ e, msg = .failure e)) →
      containsStr c.body successMarker = false →
      containsStr c.body startedMarker = false →
      retriggerChecked body = true →
      shouldProcessEdit comments body = true) := by
  refine ⟨?_, ?_, ?_, ?_⟩
  · intro comments body h
    unfold shouldProcessEdit at h
    cases hf : findLastReviewComment comments with
    | none => rw [hf] at h; exact absurd h (by simp)
    | some c =>
      rw [hf] at h
      simp only [Bool.and_eq_true, Bool.not_eq_true'] at h
      exact ⟨c, rfl, h.1.1, h.1.2, h.2⟩
  · intro comments body c pd review hf hb
    unfold shouldProcessEdit
    rw [hf]
    dsimp only
    rw [hb, successBody_marker]
    rfl
  · intro comments body c hf hb
    unfold shouldProcessEdit
    rw [hf]
    dsimp only
    rw [hb, startedBody_marker]
    simp
  · intro comments body c msg hf _hb _hkind h1 h2 h3
    unfold shouldProcessEdit
    rw [hf]
    dsimp only
    rw [h1, h2, h3]
    rfl

/-- Witness for C3: a ticket whose last bot comment is a rendered
FormatError report and whose body has the box checked does qualify. -/
theorem claim_C3_witness :
    shouldProcessEdit [⟨7, true, bodyOf (.formatError ["err"])⟩]
      "- [x] 重新提交审核" = true :=
  claim_C3.2.2.2 [⟨7, true, bodyOf (.formatError ["err"])⟩] "- [x] 重新提交审核"
    ⟨7, true, bodyOf (.formatError ["err"])⟩ (.formatError ["err"])
    (by decide) rfl (Or.inl ⟨["err"], rfl⟩) (by decide) (by decide) (by decide)

theorem postOrUpdate_effects (msg : CommentMsg) (cid : Nat) (pb : String) (fid : Nat) :
    ∀ e ∈ (postOrUpdateComment msg true (some cid) pb fid).1,
      (∀ i b, e ≠ Effect.createComment i b) ∧
      (∀ i b, e = Effect.updateComment i b → i = cid) := by
  intro e he
  unfold postOrUpdateComment at he
  dsimp only at he
  rcases List.mem_append.mp he with he | he
  · obtain rfl : e = Effect.updateComment cid (bodyOf msg) := by simpa using he
    refine ⟨by intro i b h; exact absurd h (by simp), ?_⟩
    intro i b h
    injection h with h1 _
    exact h1.symm
  · cases hopt : reviewOptionsBody pb msg with
    | some nb =>
      rw [hopt] at he
      obtain rfl : e = Effect.updateIssue nb := by simpa using he
      refine ⟨by intro i b h; exact absurd h (by simp), ?_⟩
      intro i b h
      exact absurd h (by simp)
    | none =>
      rw [hopt] at he
      simp at he

theorem handlePluginReview_effects (issue : IssueInput)
    (parseJson : String → Option PluginData) (reviewRes : BatchResult)
    (cid : Nat) (freshId : Nat) :
    ∀ e ∈ handlePluginReview issue parseJson reviewRes true (some cid) freshId,
      (∀ i b, e ≠ Effect.createComment i b) ∧
      (∀ i b, e = Effect.updateComment i b → i = cid) := by
  intro e he
  unfold handlePluginReview at he
  dsimp only at he
  have hsnd : (postOrUpdateComment CommentMsg.started true (some cid)
      issue.body freshId).2 = some cid := rfl
  rw [hsnd] at he
  rcases List.mem_append.mp he with he | he
  · exact postOrUpdate_effects _ _ _ _ e he
  · exact postOrUpdate_effects _ _ _ _ e he

/-- Claim C4: on a qualifying edit the engine's first write is the ticket
body with every checked re-trigger box replaced by an unchecked one
(write-before-process), and every comment write of the subsequent cycle
updates the pre-existing status comment in place — no comment is ever
created. -/
theorem claim_C4 (labels : List String) (issue : IssueInput)
    (comments : List BotComment) (parseJson : String → Option PluginData)
    (reviewRes : BatchResult) (freshId : Nat) (c : BotComment)
    (hl : labels.contains "plugin-publish" = true)
    (hc : findLastReviewComment comments = some c)
    (h1 : containsStr c.body successMarker = false)
    (h2 : containsStr c.body startedMarker = false)
    (h3 : retriggerChecked issue.body = true) :
    ∃ rest,
      handleIssueEvent "edited" labels issue comments parseJson reviewRes freshId =
        Effect.updateIssue (uncheckRetrigger issue.body) :: rest ∧
      ∀ e ∈ rest,
        (∀ i b, e ≠ Effect.createComment i b) ∧
        (∀ i b, e = Effect.updateComment i b → i = c.id) := by
  refine ⟨handlePluginReview issue parseJson reviewRes true (some c.id) freshId,
    ?_, handlePluginReview_effects issue parseJson reviewRes c.id freshId⟩
  unfold handleIssueEvent
  simp only [hl, hc, h1, h2, h3, Bool.not_true, Bool.not_false, beq_self_eq_true,
    Bool.false_or, Bool.or_false, Bool.false_eq_true, if_false, if_true]

/-- Witness for C4: a concrete qualifying edit. -/
theorem claim_C4_witness :
    ∃ rest,
      handleIssueEvent "edited" ["plugin-publish"]
          ⟨"[Plugin] Foo", "- [x] 重新提交审核"⟩
          [⟨7, true, bodyOf (.formatError ["err"])⟩]
          (fun _ => none) (.err "x") 0 =
        Effect.updateIssue (uncheckRetrigger "- [x] 重新提交审核") :: rest ∧
      ∀ e ∈ rest,
        (∀ i b, e ≠ Effect.createComment i b) ∧
        (∀ i b, e = Effect.updateComment i b → i = 7) :=
  claim_C4 ["plugin-publish"] ⟨"[Plugin] Foo", "- [x] 重新提交审核"⟩
    [⟨7, true, bodyOf (.formatError ["err"])⟩] (fun _ => none) (.err "x") 0
    ⟨7, true, bodyOf (.formatError ["err"])⟩
    (by decide) (by decide) (by decide) (by decide) (by decide)

theorem dropWhile_snoc (p : Char → Bool) (s : List Char) (a : Char)
    (hpa : p a = false) : (s ++ [a]).dropWhile p = s.dropWhile p ++ [a] := by
  rw [List.dropWhile_append]
  split
  case isTrue h =>
    rw [List.isEmpty_iff] at h
    rw [h]
    simp [List.dropWhile, hpa]
  case isFalse h => rfl

theorem isPrefixOf_append_of_le (pat xs ys : List Char)
    (h : pat.length ≤ xs.length) :
    pat.isPrefixOf (xs ++ ys) = pat.isPrefixOf xs := by
  cases hp : pat.isPrefixOf xs with
  | true =>
    have h1 : pat <+: xs := List.isPrefixOf_iff_prefix.mp hp
    have h2 : pat <+: xs ++ ys := h1.trans (List.prefix_append xs ys)
    exact List.isPrefixOf_iff_prefix.mpr h2
  | false =>
    cases hp2 : pat.isPrefixOf (xs ++ ys) with
    | false => rfl
    | true =>
      exfalso
      have h2 : pat <+: xs ++ ys := List.isPrefixOf_iff_prefix.mp hp2
      have h3 : pat <+: xs :=
        List.prefix_of_prefix_length_le h2 (List.prefix_append xs ys) h
      have h4 : pat.isPrefixOf xs = true := List.isPrefixOf_iff_prefix.mpr h3
      rw [h4] at hp
      exact Bool.true_eq_false ▸ hp

theorem isPrefixOf_append_short (pat xs : List Char) (y : Char) (ys : List Char)
    (hlen : xs.length < pat.length) (hy : y ∉ pat) :
    pat.isPrefixOf (xs ++ y :: ys) = false := by
  cases hp : pat.isPrefixOf (xs ++ y :: ys) with
  | false => rfl
  | true =>
    exfalso
    apply hy
    have h2 : pat <+: xs ++ y :: ys := List.isPrefixOf_iff_prefix.mp hp
    have h3 : (xs ++ y :: ys)[xs.length]? = some y := by
      rw [List.getElem?_append_right (Nat.le_refl _)]
      simp
    have h4 : pat[xs.length]? = some y := by
      obtain ⟨t, ht⟩ := h2
      rw [← ht] at h3
      rw [List.getElem?_append] at h3
      rwa [if_pos (by omega)] at h3
    exact List.getElem?_mem h4

theorem sectionWith_space : sectionWith ' ' = reviewOptionsSection := by decide

theorem sectionMatchAt_none_iff (t : List Char) :
    sectionMatchAt t = none ↔
      ∀ c2, t.dropWhile (· == '\n') = '#' :: '#' :: c2 →
        secTitle.isPrefixOf (c2.dropWhile isJsWs) = false := by
  constructor
  · intro h c2 heq
    unfold sectionMatchAt at h
    rw [heq] at h
    cases hp : secTitle.isPrefixOf (c2.dropWhile isJsWs) with
    | false => rfl
    | true =>
      exfalso
      split at h
      case h_2 hne => exact hne c2 rfl
      case h_1 c2a heq2 =>
        obtain rfl : c2a = c2 := by
          have h1 : ('#' : Char) :: '#' :: c2 = '#' :: '#' :: c2a := heq2
          injection h1 with _ h2
          injection h2 with _ h3
          exact h3.symm
        dsimp only at h
        rw [if_pos hp] at h
        split at h
        · split at h
          · split at h
            · split at h <;> exact absurd h (by simp)
            · exact absurd h (by simp)
          · exact absurd h (by simp)
        · exact absurd h (by simp)
  · intro h
    unfold sectionMatchAt
    split
    case h_2 => rfl
    case h_1 c2 heq =>
      dsimp only
      rw [if_neg (by simp [h c2 heq])]

theorem sectionMatchAt_snoc_append (box : Char) (s : List Char) (a : Char)
    (ha : isJsWs a = false)
    (hnone : sectionMatchAt (s ++ [a]) = none) :
    sectionMatchAt ((s ++ [a]) ++ secListWith box) = none := by
  have ha' : (a == '\n') = false := by
    cases hq : (a == '\n') with
    | false => rfl
    | true =>
      obtain rfl : a = '\n' := by simpa using hq
      exact absurd ha (by decide)
  rw [sectionMatchAt_none_iff] at hnone ⊢
  intro c2 heq
  have hd : ((s ++ [a]) ++ secListWith box).dropWhile (· == '\n')
      = (s.dropWhile (· == '\n') ++ [a]) ++ secListWith box := by
    rw [List.dropWhile_append, dropWhile_snoc (fun x => x == '\n') s a ha']
    simp
  rw [hd] at heq
  rcases hcase : s.dropWhile (· == '\n') with _ | ⟨x, s1⟩
  · rw [hcase] at heq
    simp only [List.nil_append, List.cons_append] at heq
    injection heq with h1 h2
    exact absurd h2 (by simp [secListWith])
  · rw [hcase] at heq
    simp only [List.cons_append] at heq
    injection heq with h1 h2
    rcases s1 with _ | ⟨y, s2⟩
    · simp only [List.nil_append, List.cons_append] at h2
      injection h2 with h3 h4
      obtain rfl : c2 = secListWith box := h4.symm
      have hred : (secListWith box).dropWhile isJsWs
          = '#' :: '#' :: ' ' :: '审' :: '核' :: '选' :: '项' :: '\n' :: '\n' ::
            '-' :: ' ' :: '[' :: box :: ']' :: ' ' :: '重' :: '新' :: '提' ::
            '交' :: '审' :: '核' :: [] := rfl
      rw [hred]
      rfl
    · simp only [List.cons_append] at h2
      injection h2 with h3 h4
      obtain rfl : c2 = (s2 ++ [a]) ++ secListWith box := h4.symm
      have hds : (s ++ [a]).dropWhile (· == '\n') = '#' :: '#' :: (s2 ++ [a]) := by
        rw [dropWhile_snoc (fun x => x == '\n') s a ha', hcase, h1, h3]
        simp
      have hp := hnone (s2 ++ [a]) hds
      rw [dropWhile_snoc isJsWs s2 a ha] at hp
      have hd2 : (((s2 ++ [a]) ++ secListWith box)).dropWhile isJsWs
          = (s2.dropWhile isJsWs ++ [a]) ++ secListWith box := by
        rw [List.dropWhile_append, dropWhile_snoc isJsWs s2 a ha]
        simp
      rw [hd2]
      rcases le_or_lt secTitle.length (s2.dropWhile isJsWs ++ [a]).length
        with hle | hlt
      · rw [isPrefixOf_append_of_le _ _ _ hle]
        exact hp
      · exact isPrefixOf_append_short _ _ '\n' _ hlt (by decide)

theorem sectionMatchAt_secList (box : Char)
    (hbox : box = ' ' ∨ box = 'x' ∨ box = 'X') :
    sectionMatchAt (secListWith box) = some [] := by
  rcases hbox with rfl | rfl | rfl <;> decide

theorem countSectionsL_nil : countSectionsL [] = 0 := by
  unfold countSectionsL
  rfl

theorem removeSectionsL_nil : removeSectionsL [] = [] := by
  unfold removeSectionsL
  rfl

theorem countSectionsL_secList (box : Char)
    (hbox : box = ' ' ∨ box = 'x' ∨ box = 'X') :
    countSectionsL (secListWith box) = 1 := by
  have hm := sectionMatchAt_secList box hbox
  rcases hsec : secListWith box with _ | ⟨c, cs⟩
  · exact absurd hsec (by rcases hbox with rfl | rfl | rfl <;> decide)
  · rw [hsec] at hm
    unfold countSectionsL
    split
    case h_1 rest heq =>
      rw [hm] at heq
      obtain rfl : rest = [] := by simpa using heq.symm
      rw [countSectionsL_nil]
    case h_2 heq => exact absurd (heq.symm.trans hm) (by simp)

theorem removeSectionsL_secList (box : Char)
    (hbox : box = ' ' ∨ box = 'x' ∨ box = 'X') :
    removeSectionsL (secListWith box) = [] := by
  have hm := sectionMatchAt_secList box hbox
  rcases hsec : secListWith box with _ | ⟨c, cs⟩
  · exact removeSectionsL_nil
  · rw [hsec] at hm
    unfold removeSectionsL
    split
    case h_1 rest heq =>
      rw [hm] at heq
      obtain rfl : rest = [] := by simpa using heq.symm
      exact removeSectionsL_nil
    case h_2 heq => exact absurd (heq.symm.trans hm) (by simp)

theorem countSectionsL_cons_none (c : Char) (cs : List Char)
    (h : sectionMatchAt (c :: cs) = none) :
    countSectionsL (c :: cs) = countSectionsL cs := by
  rw [countSectionsL.eq_def]
  split
  case h_1 heq => exact absurd heq (by simp)
  case h_2 c2 cs2 heq =>
    injection heq with h1 h2
    subst h1
    subst h2
    split
    case h_1 rest heq2 => rw [h] at heq2; exact absurd heq2 (by simp)
    case h_2 => rfl

theorem removeSectionsL_cons_none (c : Char) (cs : List Char)
    (h : sectionMatchAt (c :: cs) = none) :
    removeSectionsL (c :: cs) = c :: removeSectionsL cs := by
  rw [removeSectionsL.eq_def]
  split
  case h_1 heq => exact absurd heq (by simp)
  case h_2 c2 cs2 heq =>
    injection heq with h1 h2
    subst h1
    subst h2
    split
    case h_1 rest heq2 => rw [h] at heq2; exact absurd heq2 (by simp)
    case h_2 => rfl

theorem countSectionsL_snoc_append (box a : Char)
    (hbox : box = ' ' ∨ box = 'x' ∨ box = 'X') (ha : isJsWs a = false) :
    ∀ s : List Char,
      (∀ i, sectionMatchAt ((s ++ [a]).drop i) = none) →
      countSectionsL ((s ++ [a]) ++ secListWith box) = 1 := by
  intro s
  induction s with
  | nil =>
    intro hall
    have h0 : sectionMatchAt (a :: secListWith box) = none := by
      have := sectionMatchAt_snoc_append box [] a ha (by simpa using hall 0)
      simpa using this
    simp only [List.nil_append]
    have h1 : ([a] ++ secListWith box) = a :: secListWith box := rfl
    rw [h1, countSectionsL_cons_none _ _ h0, countSectionsL_secList box hbox]
  | cons c s' ih =>
    intro hall
    have h0 : sectionMatchAt (((c :: s') ++ [a]) ++ secListWith box) = none :=
      sectionMatchAt_snoc_append box (c :: s') a ha (by simpa using hall 0)
    have h1 : ((c :: s') ++ [a]) ++ secListWith box
        = c :: ((s' ++ [a]) ++ secListWith box) := by simp
    rw [h1] at h0 ⊢
    rw [countSectionsL_cons_none _ _ h0]
    exact ih (fun i => by simpa using hall (i + 1))

theorem removeSectionsL_snoc_append (box a : Char)
    (hbox : box = ' ' ∨ box = 'x' ∨ box = 'X') (ha : isJsWs a = false) :
    ∀ s : List Char,
      (∀ i, sectionMatchAt ((s ++ [a]).drop i) = none) →
      removeSectionsL ((s ++ [a]) ++ secListWith box) = s ++ [a] := by
  intro s
  induction s with
  | nil =>
    intro hall
    have h0 : sectionMatchAt (a :: secListWith box) = none := by
      have := sectionMatchAt_snoc_append box [] a ha (by simpa using hall 0)
      simpa using this
    simp only [List.nil_append]
    have h1 : ([a] ++ secListWith box) = a :: secListWith box := rfl
    rw [h1, removeSectionsL_cons_none _ _ h0, removeSectionsL_secList box hbox]
  | cons c s' ih =>
    intro hall
    have h0 : sectionMatchAt (((c :: s') ++ [a]) ++ secListWith box) = none :=
      sectionMatchAt_snoc_append box (c :: s') a ha (by simpa using hall 0)
    have h1 : ((c :: s') ++ [a]) ++ secListWith box
        = c :: ((s' ++ [a]) ++ secListWith box) := by simp
    rw [h1] at h0 ⊢
    rw [removeSectionsL_cons_none _ _ h0]
    rw [ih (fun i => by simpa using hall (i + 1))]
    simp

theorem hasSectionL_append_sec (box : Char)
    (hbox : box = ' ' ∨ box = 'x' ∨ box = 'X') (l : List Char) :
    hasSectionL (l ++ secListWith box) = true := by
  refine anyPos_true_of_drop _ _ l.length ?_
  rw [List.drop_left]
  rw [sectionMatchAt_secList box hbox]
  rfl

theorem hasSection_false_all (s : List Char) (h : hasSectionL s = false) :
    ∀ i, sectionMatchAt (s.drop i) = none := by
  intro i
  have := anyPos_false _ s h i
  exact Option.not_isSome_iff_eq_none.mp (by simpa using this)

theorem jsTrim_fix_last (s : List Char) (a : Char)
    (h : trimL (s ++ [a]) = s ++ [a]) : isJsWs a = false := by
  cases hw : isJsWs a with
  | false => rfl
  | true =>
    exfalso
    have hlen1 : (trimL (s ++ [a])).length = s.length + 1 := by
      rw [h]
      simp
    have hsfx : (s ++ [a]).dropWhile isJsWs <:+ s ++ [a] := List.dropWhile_suffix _
    have hlen2 : (trimL (s ++ [a])).length ≤ ((s ++ [a]).dropWhile isJsWs).length :=
      (trimEndL_isPrefix_self _).length_le
    have hlen3 : ((s ++ [a]).dropWhile isJsWs).length ≤ s.length + 1 := by
      have := hsfx.sublist.length_le
      simpa using this
    have hc : (s ++ [a]).length = s.length + 1 := by simp
    have hdw : (s ++ [a]).dropWhile isJsWs = s ++ [a] :=
      hsfx.sublist.eq_of_length (by omega)
    have htrim : trimEndL (s ++ [a]) = s ++ [a] := by
      unfold trimL at h
      rwa [hdw] at h
    have hrev : (s ++ [a]).reverse = a :: s.reverse := by
      simp
    have hshort : (trimEndL (s ++ [a])).length ≤ s.length := by
      unfold trimEndL
      rw [hrev]
      have : (a :: s.reverse).dropWhile isJsWs = s.reverse.dropWhile isJsWs := by
        simp [List.dropWhile, hw]
      rw [this]
      have := (List.dropWhile_sublist (l := s.reverse) isJsWs).length_le
      simpa using this
    rw [htrim] at hshort
    simp at hshort

theorem toList_append_sec (b : String) (box : Char) :
    (b ++ sectionWith box).toList = b.toList ++ secListWith box := by
  show (b ++ sectionWith box).data = b.data ++ secListWith box
  rw [String.data_append]
  congr 1

/-- Claim C5: starting from a trimmed, section-free ticket body, a cycle
ending in FormatError or Failure appends the review-options section and
the body then contains exactly one section match; a further failing cycle
adds nothing (idempotent insert); a Success cycle removes the section —
whatever the checkbox state — leaving a body with no section, and leaves
a section-free body untouched. -/
theorem claim_C5 (b : String) (errs : List String) (err : String) (pd : PluginData)
    (review : String) (box : Char) (hbox : box = ' ' ∨ box = 'x' ∨ box = 'X')
    (hb : jsTrim b = b) (hn : hasSection b = false) :
    reviewOptionsBody b (.formatError errs) = some (b ++ reviewOptionsSection) ∧
    reviewOptionsBody b (.failure err) = some (b ++ reviewOptionsSection) ∧
    countSections (b ++ reviewOptionsSection) = 1 ∧
    reviewOptionsBody (b ++ sectionWith box) (.formatError errs) = none ∧
    reviewOptionsBody (b ++ sectionWith box) (.failure err) = none ∧
    reviewOptionsBody (b ++ sectionWith box) (.success pd review) = some b ∧
    hasSection b = false ∧
    reviewOptionsBody b (.success pd review) = none := by
  have hbl : trimL b.toList = b.toList := by
    have := congrArg String.toList hb
    rwa [jsTrim, List.toList_asString] at this
  have hall : ∀ i, sectionMatchAt (b.toList.drop i) = none :=
    hasSection_false_all b.toList hn
  have hshape : b.toList = [] ∨
      ∃ s a, b.toList = s ++ [a] ∧ isJsWs a = false := by
    rcases List.eq_nil_or_concat b.toList with h | ⟨L, a, h⟩
    · exact Or.inl h
    · refine Or.inr ⟨L, a, by simpa [List.concat_eq_append] using h, ?_⟩
      apply jsTrim_fix_last L a
      rw [← show b.toList = L ++ [a] by simpa [List.concat_eq_append] using h]
      exact hbl
  have hkey : ∀ bx : Char, bx = ' ' ∨ bx = 'x' ∨ bx = 'X' →
      countSectionsL (b.toList ++ secListWith bx) = 1 ∧
      removeSectionsL (b.toList ++ secListWith bx) = b.toList := by
    intro bx hbx
    rcases hshape with hnil | ⟨s, a, hsa, ha⟩
    · rw [hnil]
      simp only [List.nil_append]
      exact ⟨countSectionsL_secList bx hbx, removeSectionsL_secList bx hbx⟩
    · rw [hsa]
      constructor
      · exact countSectionsL_snoc_append bx a hbx ha s (by rw [← hsa]; exact hall)
      · exact removeSectionsL_snoc_append bx a hbx ha s (by rw [← hsa]; exact hall)
  have hsec_true : ∀ bx : Char, bx = ' ' ∨ bx = 'x' ∨ bx = 'X' →
      hasSection (b ++ sectionWith bx) = true := by
    intro bx hbx
    show hasSectionL (b ++ sectionWith bx).toList = true
    rw [toList_append_sec]
    exact hasSectionL_append_sec bx hbx b.toList
  have hspace : (' ' : Char) = ' ' ∨ (' ' : Char) = 'x' ∨ (' ' : Char) = 'X' :=
    Or.inl rfl
  refine ⟨?_, ?_, ?_, ?_, ?_, ?_, hn, ?_⟩
  · show (if hasSection b = true then none
      else some (jsTrim b ++ reviewOptionsSection)) = some (b ++ reviewOptionsSection)
    rw [hn]
    simp [hb]
  · show (if hasSection b = true then none
      else some (jsTrim b ++ reviewOptionsSection)) = some (b ++ reviewOptionsSection)
    rw [hn]
    simp [hb]
  · show countSectionsL (b ++ reviewOptionsSection).toList = 1
    rw [← sectionWith_space, toList_append_sec]
    exact (hkey ' ' hspace).1
  · show (if hasSection (b ++ sectionWith box) = true then none
      else some _) = none
    rw [hsec_true box hbox]
    simp
  · show (if hasSection (b ++ sectionWith box) = true then none
      else some _) = none
    rw [hsec_true box hbox]
    simp
  · show (if hasSection (b ++ sectionWith box) = true then
        some (jsTrim (removeSections (b ++ sectionWith box))) else none) = some b
    rw [hsec_true box hbox]
    have hrm : removeSections (b ++ sectionWith box) = b := by
      show (removeSectionsL (b ++ sectionWith box).toList).asString = b
      rw [toList_append_sec, (hkey box hbox).2]
      exact String.asString_toList b
    simp [hrm, hb]
  · show (if hasSection b = true then
        some (jsTrim (removeSections b)) else none) = none
    rw [hn]
    simp

/-- Witness for C5: the lifecycle on the concrete body `hello`. -/
theorem claim_C5_witness :
    reviewOptionsBody "hello" (.formatError ["e"]) =
      some ("hello" ++ reviewOptionsSection) ∧
    countSections ("hello" ++ reviewOptionsSection) = 1 ∧
    reviewOptionsBody ("hello" ++ sectionWith 'x') (.formatError ["e"]) = none ∧
    reviewOptionsBody ("hello" ++ sectionWith 'x')
      (.success ⟨some "n", some "d", some "r"⟩ "rv") = some "hello" := by
  obtain ⟨h1, -, h3, h4, -, h6, -, -⟩ :=
    claim_C5 "hello" ["e"] "" ⟨some "n", some "d", some "r"⟩ "rv" 'x'
      (Or.inr (Or.inl rfl)) (by decide) (by decide)
  exact ⟨h1, h3, h4, h6⟩
